import Mathlib

/-!
# Verification of the digital-signage media sync core (`main.go`)

Shallow embedding of the Go program's reconciliation engine:

* `scanMedia` (local inventory scan over `filepath.Walk` events, filtering by
  media extension and sorting with `sort.Slice`),
* `syncFromS3` (one reconciliation cycle: list remote keys, download missing
  files, delete local files absent from the listing, conditionally rescan),
* `downloadFromS3` (single object fetch), and
* the single-call `ListObjectsV2` remote listing.

Machine state is explicit: the local filesystem is a list of paths (or a map
from path to byte content where content matters), the published inventory is a
list of `MediaFile`, and each cycle returns the successor state together with
a trace of the download/remove effects it performed, in order.

`sort.Slice` is embedded by a faithful transcription of Go's pdqsort
(`src/sort/zsortfunc.go`), because one claim concerns the ordering of
identically-named entries, which depends on the exact (unstable) algorithm.
-/

/-- `MediaFile` from `main.go`: `{Name, Path, URL}`. -/
structure MediaFile where
  Name : String
  Path : String
  URL : String
deriving DecidableEq, Repr

instance : Inhabited MediaFile := ⟨⟨"", "", ""⟩⟩

/-! ## String helpers modelling the Go standard library

Paths here are ASCII, `/`-separated, as produced by the program
(`filepath.Join(mediaDir, key)` and walk paths under `mediaDir`). -/

/-- Helper for `extOf`: scans the reversed character list; `acc` holds the
characters already passed, in forward order. Models the backwards scan in
`filepath.Ext` (stop at a path separator; cut at the last dot). -/
def extOfAux (acc : List Char) : List Char → String
  | [] => ""
  | c :: cs =>
    if c = '/' then ""
    else if c = '.' then String.mk ('.' :: acc)
    else extOfAux (c :: acc) cs

/-- Models Go `filepath.Ext`: the suffix beginning at the final dot in the
final element of the path; empty when there is no dot. -/
def extOf (p : String) : String := extOfAux [] p.data.reverse

/-- Models Go `info.Name()` for a walked path: the final path element. -/
def baseName (p : String) : String :=
  String.mk ((p.data.reverse.takeWhile (fun c => c ≠ '/')).reverse)

/-- Models Go `strings.ToLower` (ASCII range, which covers the extensions the
program compares against). -/
def toLowerStr (s : String) : String := String.mk (s.data.map Char.toLower)

/-- The `supportedExts` set from `scanMedia`. -/
def supportedExts : List String :=
  [".mp4", ".avi", ".mov", ".mkv", ".webm", ".m4v", ".3gp"]

/-- Models `filepath.Rel(mediaDir, path)` for the shapes the walk produces
(paths under `mediaDir`); the Go code ignores the error return. -/
def relOf (mediaDir p : String) : String :=
  if (mediaDir.data ++ ['/']).isPrefixOf p.data then
    String.mk (p.data.drop (mediaDir.data.length + 1))
  else p

/-- One callback invocation of `filepath.Walk`: the visited path, its base
name (`info.Name()`), whether it is a directory, and whether the walk reported
an I/O error for this entry (the callback's `err` argument being non-nil). -/
structure WalkEntry where
  path : String
  name : String
  isDir : Bool
  err : Bool
deriving DecidableEq, Repr

/-- The `MediaFile` literal built inside the `scanMedia` walk callback
(`filepath.ToSlash` is the identity on these `/`-separated paths). -/
def mkMediaFile (mediaDir : String) (e : WalkEntry) : MediaFile :=
  { Name := e.name, Path := e.path, URL := "/media/" ++ relOf mediaDir e.path }

/-- Whether a path has a supported media extension
(`supportedExts[strings.ToLower(filepath.Ext(path))]`). -/
def mediaPath (p : String) : Bool := supportedExts.contains (toLowerStr (extOf p))

/-- The walk callback's acceptance test: a non-directory entry with a
supported extension. -/
def isMediaEntry (e : WalkEntry) : Bool := !e.isDir && mediaPath e.path

/-- The collection phase of `scanMedia`: the walk callback appends a
`MediaFile` for each non-directory entry with a supported extension.  When the
callback receives an error it returns it, which makes `filepath.Walk` stop
the entire walk; whatever was collected before that point is kept. -/
def walkCollect (mediaDir : String) : List WalkEntry → List MediaFile
  | [] => []
  | e :: es =>
    if e.err then []
    else if isMediaEntry e then mkMediaFile mediaDir e :: walkCollect mediaDir es
    else walkCollect mediaDir es

/-! ## `sort.Slice`: transcription of Go's pdqsort (`src/sort/zsortfunc.go`)

The slice is a `List MediaFile`; `data.Less i j` is
`mediaFiles[i].Name < mediaFiles[j].Name` as in `scanMedia`, and `data.Swap`
exchanges two positions.  Loops carry explicit fuel so that every definition
is structurally recursive and kernel-evaluable; callers always pass enough
fuel for the loop bounds, so exhaustion never occurs on the real control
flow. -/

/-- Indexing with the (never reached, in-bounds callers) default. -/
def getN (l : List MediaFile) (i : Nat) : MediaFile := l.getD i default

/-- Go's `<` on strings (byte-wise lexicographic; on UTF-8 data this agrees
with the character-wise lexicographic order used here).  Stated on the
character lists so that it evaluates inside the kernel; it agrees with
Mathlib's `String` order via `String.lt_iff`. -/
def nameLt (x y : MediaFile) : Bool := decide (x.Name.data < y.Name.data)

/-- `data.Less(i, j)` from `scanMedia`'s `sort.Slice` call:
`mediaFiles[i].Name < mediaFiles[j].Name`. -/
def lessAt (l : List MediaFile) (i j : Nat) : Bool :=
  nameLt (getN l i) (getN l j)

/-- `data.Swap(i, j)`.  Out-of-range indices (which Go would panic on and
which never occur on the real control flow) leave the list unchanged, so the
operation is unconditionally a permutation. -/
def swapL (l : List MediaFile) (i j : Nat) : List MediaFile :=
  if i < l.length ∧ j < l.length then (l.set i (getN l j)).set j (getN l i) else l

/-- Inner loop of `insertionSort_func`:
`for j := i; j > a && data.Less(j, j-1); j-- { data.Swap(j, j-1) }`. -/
def bubble (a : Nat) : Nat → List MediaFile → List MediaFile
  | 0, l => l
  | j + 1, l =>
    if a < j + 1 && lessAt l (j + 1) j then bubble a j (swapL l (j + 1) j) else l

/-- Outer loop of `insertionSort_func`: `for i := a + 1; i < b; i++`. -/
def insLoop (a b : Nat) : Nat → Nat → List MediaFile → List MediaFile
  | _, 0, l => l
  | i, fuel + 1, l => if i < b then insLoop a b (i + 1) fuel (bubble a i l) else l

/-- `insertionSort_func(data, a, b)`. -/
def insertionSortF (a b : Nat) (l : List MediaFile) : List MediaFile :=
  insLoop a b (a + 1) b l

/-- Loop of `siftDown_func`, recursing on the moving `root`. -/
def siftDownLoop (first hi : Nat) : Nat → Nat → List MediaFile → List MediaFile
  | 0, _, l => l
  | fuel + 1, root, l =>
    let child := 2 * root + 1
    if child ≥ hi then l
    else
      let child := if child + 1 < hi && lessAt l (first + child) (first + child + 1) then
        child + 1 else child
      if !lessAt l (first + root) (first + child) then l
      else siftDownLoop first hi fuel child (swapL l (first + root) (first + child))

/-- Heap-construction loop of `heapSort_func`:
`for i := (hi - 1) / 2; i >= 0; i--`; the counter argument is `i + 1`. -/
def heapBuild (first hi : Nat) : Nat → List MediaFile → List MediaFile
  | 0, l => l
  | i + 1, l => heapBuild first hi i (siftDownLoop first hi hi i l)

/-- Pop loop of `heapSort_func`: `for i := hi - 1; i >= 0; i--`; the counter
argument is `i + 1`. -/
def heapPop (first : Nat) : Nat → List MediaFile → List MediaFile
  | 0, l => l
  | i + 1, l => heapPop first i (siftDownLoop first i i 0 (swapL l first (first + i)))

/-- `heapSort_func(data, a, b)`. -/
def heapSortF (a b : Nat) (l : List MediaFile) : List MediaFile :=
  heapPop a (b - a) (heapBuild a (b - a) ((b - a - 1) / 2 + 1) l)

/-- `reverseRange_func(data, a, b)`. -/
def reverseRangeLoop : Nat → Nat → Nat → List MediaFile → List MediaFile
  | 0, _, _, l => l
  | fuel + 1, i, j, l =>
    if i < j then reverseRangeLoop fuel (i + 1) (j - 1) (swapL l i j) else l

/-- `reverseRange_func(data, a, b)`. -/
def reverseRangeF (a b : Nat) (l : List MediaFile) : List MediaFile :=
  reverseRangeLoop b a (b - 1) l

/-- `order2_func`: orders two indices, counting performed exchanges in the
`swaps` accumulator. -/
def order2 (l : List MediaFile) (a b sw : Nat) : Nat × Nat × Nat :=
  if lessAt l b a then (b, a, sw + 1) else (a, b, sw)

/-- `median_func`: index of the median of three positions. -/
def medianIdx (l : List MediaFile) (a b c sw : Nat) : Nat × Nat :=
  let (a, b, sw) := order2 l a b sw
  let (b, _c, sw) := order2 l b c sw
  let (_a, b, sw) := order2 l a b sw
  (b, sw)

/-- `medianAdjacent_func`: median of `a-1, a, a+1`. -/
def medianAdjacent (l : List MediaFile) (a sw : Nat) : Nat × Nat :=
  medianIdx l (a - 1) a (a + 1) sw

/-- The `sortedHint` values of Go's pdqsort. -/
inductive SortedHint where
  | increasing
  | decreasing
  | unknown
deriving DecidableEq, Repr

/-- `choosePivot_func` (`shortestNinther = 50`, `maxSwaps = 12`). -/
def choosePivot (l : List MediaFile) (a b : Nat) : Nat × SortedHint :=
  let len := b - a
  let i := a + len / 4 * 1
  let j := a + len / 4 * 2
  let k := a + len / 4 * 3
  let (j, sw) :=
    if len ≥ 8 then
      let (i, j, k, sw) :=
        if len ≥ 50 then
          let (i, sw) := medianAdjacent l i 0
          let (j, sw) := medianAdjacent l j sw
          let (k, sw) := medianAdjacent l k sw
          (i, j, k, sw)
        else (i, j, k, 0)
      medianIdx l i j k sw
    else (j, 0)
  if sw = 0 then (j, .increasing)
  else if sw = 12 then (j, .decreasing)
  else (j, .unknown)

/-- Scanning loop at the top of each `partialInsertionSort_func` step:
`for i < b && !data.Less(i, i-1) { i++ }`; returns the final `i`. -/
def paiScan (b : Nat) (l : List MediaFile) : Nat → Nat → Nat
  | 0, i => i
  | fuel + 1, i => if i < b && !lessAt l i (i - 1) then paiScan b l fuel (i + 1) else i

/-- Left-shift loop of `partialInsertionSort_func`:
`for j := i - 1; j >= 1; j-- { if !Less(j, j-1) break; Swap(j, j-1) }`. -/
def shiftLeft : Nat → List MediaFile → List MediaFile
  | 0, l => l
  | j + 1, l => if lessAt l (j + 1) j then shiftLeft j (swapL l (j + 1) j) else l

/-- Right-shift loop of `partialInsertionSort_func`:
`for j := i + 1; j < b; j++ { if !Less(j, j-1) break; Swap(j, j-1) }`. -/
def shiftRight (b : Nat) : Nat → Nat → List MediaFile → List MediaFile
  | 0, _, l => l
  | fuel + 1, j, l =>
    if j < b then
      if !lessAt l j (j - 1) then l else shiftRight b fuel (j + 1) (swapL l j (j - 1))
    else l

/-- `partialInsertionSort_func` (`maxSteps = 5`, `shortestShifting = 50`): up
to five adjacent out-of-order pairs are repaired; returns the updated slice
and whether it finished fully sorted. -/
def partInsSortF (a b : Nat) : Nat → Nat → List MediaFile → List MediaFile × Bool
  | 0, _, l => (l, false)
  | step + 1, i, l =>
    let i := paiScan b l b i
    if i = b then (l, true)
    else if b - a < 50 then (l, false)
    else
      let l := swapL l i (i - 1)
      let l := if i - a ≥ 2 then shiftLeft (i - 1) l else l
      let l := if b - i ≥ 2 then shiftRight b b (i + 1) l else l
      partInsSortF a b step i l

/-- First scan in `partitionEqual_func`:
`for i <= j && !data.Less(a, i) { i++ }`. -/
def peqScanI (l : List MediaFile) (a j : Nat) : Nat → Nat → Nat
  | 0, i => i
  | fuel + 1, i => if i ≤ j && !lessAt l a i then peqScanI l a j fuel (i + 1) else i

/-- Second scan in `partitionEqual_func`:
`for i <= j && data.Less(a, j) { j-- }`. -/
def peqScanJ (l : List MediaFile) (a i : Nat) : Nat → Nat → Nat
  | 0, j => j
  | fuel + 1, j => if i ≤ j && lessAt l a j then peqScanJ l a i fuel (j - 1) else j

/-- Main loop of `partitionEqual_func`; returns `(newpivot, slice)`. -/
def peqLoop (a b : Nat) : Nat → Nat → Nat → List MediaFile → Nat × List MediaFile
  | 0, i, _, l => (i, l)
  | fuel + 1, i, j, l =>
    let i := peqScanI l a j b i
    let j := peqScanJ l a i b j
    if i > j then (i, l)
    else peqLoop a b fuel (i + 1) (j - 1) (swapL l i j)

/-- `partitionEqual_func(data, a, b, pivot)`: moves elements equal to the
pivot to the front of the interval; returns `(newpivot, slice)`. -/
def partitionEqualF (a b pivot : Nat) (l : List MediaFile) : Nat × List MediaFile :=
  let l := swapL l a pivot
  peqLoop a b b (a + 1) (b - 1) l

/-- First scan in `partition_func`: `for i <= j && data.Less(i, a) { i++ }`. -/
def partScanI (l : List MediaFile) (a j : Nat) : Nat → Nat → Nat
  | 0, i => i
  | fuel + 1, i => if i ≤ j && lessAt l i a then partScanI l a j fuel (i + 1) else i

/-- Second scan in `partition_func`:
`for i <= j && !data.Less(j, a) { j-- }`. -/
def partScanJ (l : List MediaFile) (a i : Nat) : Nat → Nat → Nat
  | 0, j => j
  | fuel + 1, j => if i ≤ j && !lessAt l j a then partScanJ l a i fuel (j - 1) else j

/-- Main loop of `partition_func` after the first exchange. -/
def partLoop (a b : Nat) : Nat → Nat → Nat → List MediaFile → Nat × List MediaFile
  | 0, _, j, l => (j, l)
  | fuel + 1, i, j, l =>
    let i := partScanI l a j b i
    let j := partScanJ l a i b j
    if i > j then (j, l)
    else partLoop a b fuel (i + 1) (j - 1) (swapL l i j)

/-- `partition_func(data, a, b, pivot)`: Hoare partition around the pivot
(moved to position `a` first); returns `(newpivot, alreadyPartitioned,
slice)`. -/
def partitionF (a b pivot : Nat) (l : List MediaFile) : Nat × Bool × List MediaFile :=
  let l := swapL l a pivot
  let i := partScanI l a (b - 1) b (a + 1)
  let j := partScanJ l a i b (b - 1)
  if i > j then (j, true, swapL l j a)
  else
    let l := swapL l i j
    let (j, l) := partLoop a b b (i + 1) (j - 1) l
    (j, false, swapL l j a)

/-- `xorshift.Next()` on a 64-bit state, as in Go's `sort` package. -/
def xorshiftNext (r : Nat) : Nat :=
  let r := (r ^^^ (r <<< 13)) % 2 ^ 64
  let r := r ^^^ (r >>> 7)
  (r ^^^ (r <<< 17)) % 2 ^ 64

/-- `bits.Len` (number of bits needed to represent `n`), structurally. -/
def bitsLenAux : Nat → Nat → Nat
  | 0, _ => 0
  | fuel + 1, n => if n = 0 then 0 else bitsLenAux fuel (n / 2) + 1

/-- `bits.Len(uint(n))`. -/
def bitsLen (n : Nat) : Nat := bitsLenAux (n + 1) n

/-- `nextPowerOfTwo(length) = 1 << bits.Len(uint(length))`. -/
def nextPowerOfTwo (n : Nat) : Nat := 2 ^ bitsLen n

/-- `breakPatterns_func`: swaps three positions near the middle with
pseudo-random ones, seeding the xorshift generator with the length. -/
def breakPatterns (a b : Nat) (l : List MediaFile) : List MediaFile :=
  let len := b - a
  if len ≥ 8 then
    let modulus := nextPowerOfTwo len
    let idx := a + len / 4 * 2 - 1
    let step := fun (st : Nat × List MediaFile) (i : Nat) =>
      let (r, l) := st
      let r := xorshiftNext r
      let other := r &&& (modulus - 1)
      let other := if other ≥ len then other - len else other
      (r, swapL l (idx - 1 + i) (a + other))
    ([0, 1, 2].foldl step (len, l)).2
  else l

/-- The `breakPatterns` step at the top of a `pdqsort_func` iteration:
`if !wasBalanced { breakPatterns(data, a, b); limit-- }`. -/
def pdqBreak (wb : Bool) (a b limit : Nat) (l : List MediaFile) : List MediaFile × Nat :=
  if !wb then (breakPatterns a b l, limit - 1) else (l, limit)

/-- The hint-handling step of a `pdqsort_func` iteration: on a decreasing
hint, reverse the range, mirror the pivot and treat the hint as
increasing. -/
def pdqReverse (a b pivot : Nat) (hint : SortedHint) (l : List MediaFile) :
    List MediaFile × Nat × SortedHint :=
  if hint = SortedHint.decreasing then
    (reverseRangeF a b l, (b - 1) - (pivot - a), SortedHint.increasing)
  else (l, pivot, hint)

/-- The opportunistic `partialInsertionSort` step of a `pdqsort_func`
iteration, attempted only when the previous partitioning was balanced and
partitioned and the hint is increasing. -/
def pdqTryPIS (wb wp : Bool) (hint : SortedHint) (a b : Nat) (l : List MediaFile) :
    List MediaFile × Bool :=
  if wb && wp && hint = SortedHint.increasing then partInsSortF a b 5 (a + 1) l
  else (l, false)

/-- `pdqsort_func(data, a, b, limit)` (`maxInsertion = 12`).  The outer `for`
loop and the recursive calls both consume one unit of fuel; every step
strictly shrinks `b - a`, so fuel `n + 1` suffices for a slice of length
`n`. -/
def pdqsortF : Nat → Nat → Nat → Nat → Bool → Bool → List MediaFile → List MediaFile
  | 0, _, _, _, _, _, l => l
  | fuel + 1, a, b, limit, wasBalanced, wasPartitioned, l =>
    let length := b - a
    if length ≤ 12 then insertionSortF a b l
    else if limit = 0 then heapSortF a b l
    else
      match pdqBreak wasBalanced a b limit l with
      | (l1, limit1) =>
        match choosePivot l1 a b with
        | (pivot, hint) =>
          match pdqReverse a b pivot hint l1 with
          | (l2, pivot2, hint2) =>
            match pdqTryPIS wasBalanced wasPartitioned hint2 a b l2 with
            | (l3, done) =>
              if done then l3
              else if a > 0 && !lessAt l3 (a - 1) pivot2 then
                match partitionEqualF a b pivot2 l3 with
                | (mid, l4) => pdqsortF fuel mid b limit1 wasBalanced wasPartitioned l4
              else
                match partitionF a b pivot2 l3 with
                | (mid, alreadyPartitioned, l4) =>
                  let leftLen := mid - a
                  let rightLen := b - mid
                  let wasBalanced := decide (min leftLen rightLen ≥ length / 8)
                  let wasPartitioned := alreadyPartitioned
                  if leftLen < rightLen then
                    pdqsortF fuel (mid + 1) b limit1 wasBalanced wasPartitioned
                      (pdqsortF fuel a mid limit1 true true l4)
                  else
                    pdqsortF fuel a mid limit1 wasBalanced wasPartitioned
                      (pdqsortF fuel (mid + 1) b limit1 true true l4)

/-- `sort.Slice(mediaFiles, ...)` as called by `scanMedia`:
`pdqsort_func(lessSwap, 0, length, bits.Len(uint(length)))`. -/
def sortSlice (l : List MediaFile) : List MediaFile :=
  pdqsortF (l.length + 1) 0 l.length (bitsLen l.length) true true l

/-- `scanMedia` over a stream of walk events: collect matching entries (the
walk stops at the first error), then sort by name with `sort.Slice` — the
resulting list is what gets published to `s.mediaList`. -/
def scanMediaGo (mediaDir : String) (events : List WalkEntry) : List MediaFile :=
  sortSlice (walkCollect mediaDir events)

/-! ## Rescans driven by the sync cycle

`syncFromS3` calls `scanMedia`, whose `filepath.Walk` visits the directory
tree deterministically (lexically within each directory).  At the granularity
the sync-level claims need, the filesystem is the list of file paths present;
the walk is modelled as visiting those paths in lexicographic order, each as
an error-free non-directory entry. -/

/-- Stable ordered insertion used to model the deterministic visiting order
of `filepath.Walk`. -/
def insStr (x : String) : List String → List String
  | [] => [x]
  | y :: ys => if x.data ≤ y.data then x :: y :: ys else y :: insStr x ys

/-- The deterministic order in which `filepath.Walk` visits a set of file
paths. -/
def sortStrings (l : List String) : List String := l.foldr insStr []

/-- The walk events produced by scanning a disk holding the given file
paths, with no I/O errors. -/
def diskEvents (disk : List String) : List WalkEntry :=
  (sortStrings disk).map fun p => ⟨p, baseName p, false, false⟩

/-- `scanMedia` as triggered with the media directory holding exactly
`disk`: collect the media files and sort them; the result replaces
`s.mediaList`. -/
def scanDisk (mediaDir : String) (disk : List String) : List MediaFile :=
  scanMediaGo mediaDir (diskEvents disk)

/-! ## The reconciliation cycle (`syncFromS3`) -/

/-- Outcome of one `downloadFromS3` call, as visible at path granularity:
`ok` (object fully written), `errNoFile` (failed before `os.Create`, e.g.
`GetObject` or `MkdirAll` error: no file appears), `errPartial` (`io.Copy`
failed mid-transfer: `os.Create` already created the destination, so a
truncated file exists at the final path). -/
inductive DlOutcome where
  | ok
  | errNoFile
  | errPartial
deriving DecidableEq, Repr

/-- One externally visible filesystem mutation performed by a cycle, in
order: a download attempt for a key, or an `os.Remove` of a local path. -/
inductive Effect where
  | download (key : String)
  | remove (path : String)
deriving DecidableEq, Repr

/-- The mutable server state the cycle touches: the media directory contents
and the published inventory `s.mediaList`. -/
structure SyncState where
  disk : List String
  mediaList : List MediaFile
deriving DecidableEq, Repr

/-- Intermediate state of the key-processing loop in `syncFromS3`. -/
structure ProcSt where
  disk : List String
  toRemove : List String
  syncCount : Nat
  trace : List Effect
deriving DecidableEq, Repr

/-- `filepath.Join(mediaDir, fileName)` for the separator-free keys the
store serves. -/
def joinPath (mediaDir key : String) : String := mediaDir ++ "/" ++ key

/-- The `for _, obj := range resp.Contents` loop of `syncFromS3`: for each
key, if the mapped local path exists (`os.Stat` succeeds) it is pruned from
`localFilesToRemove` (`slices.Index` + `slices.Delete`, i.e. first
occurrence); otherwise `downloadFromS3` is attempted, counting successes in
`syncCount`. -/
def processKeys (mediaDir : String) (dl : String → DlOutcome) :
    List String → ProcSt → ProcSt
  | [], st => st
  | k :: ks, st =>
    let localPath := joinPath mediaDir k
    if localPath ∈ st.disk then
      processKeys mediaDir dl ks { st with toRemove := st.toRemove.erase localPath }
    else
      match dl k with
      | .ok => processKeys mediaDir dl ks
          { st with disk := localPath :: st.disk, syncCount := st.syncCount + 1,
                    trace := st.trace ++ [.download k] }
      | .errNoFile => processKeys mediaDir dl ks
          { st with trace := st.trace ++ [.download k] }
      | .errPartial => processKeys mediaDir dl ks
          { st with disk := localPath :: st.disk, trace := st.trace ++ [.download k] }

/-- The deletion pass of `syncFromS3`: `os.Remove` each leftover path in
order; a failed removal (path absent) is ignored. -/
def applyRemovals : List String → List String × List Effect → List String × List Effect
  | [], acc => acc
  | p :: ps, (disk, trace) => applyRemovals ps (disk.erase p, trace ++ [.remove p])

/-- Result of one `syncFromS3` call: the successor state, the ordered trace
of effects, and `syncCount` (the number of successful downloads). -/
structure CycleResult where
  state : SyncState
  trace : List Effect
  syncCount : Nat
deriving DecidableEq, Repr

/-- `syncFromS3`: one reconciliation cycle.  A listing error returns at once
with nothing mutated.  Otherwise: seed `localFilesToRemove` with the paths of
the published inventory, process every listed key (downloads before any
deletion), apply the deletions, and re-run `scanMedia` only when
`syncCount > 0`. -/
def syncFromS3 (mediaDir : String) (dl : String → DlOutcome) (st : SyncState)
    (listing : Except Unit (List String)) : CycleResult :=
  match listing with
  | .error _ => ⟨st, [], 0⟩
  | .ok keys =>
    let p := processKeys mediaDir dl keys ⟨st.disk, st.mediaList.map (·.Path), 0, []⟩
    let ar := applyRemovals p.toRemove (p.disk, p.trace)
    let mediaList' := if p.syncCount > 0 then scanDisk mediaDir ar.1 else st.mediaList
    ⟨⟨ar.1, mediaList'⟩, ar.2, p.syncCount⟩

/-! ## The fetcher (`downloadFromS3`) at byte granularity -/

/-- Result of the `GetObject` call and subsequent body stream: either the
call itself fails, or a body stream delivers `delivered` bytes and then
either ends cleanly (`failed = false`) or errors mid-transfer
(`failed = true`). -/
inductive GetObjectResult where
  | err
  | body (delivered : List Nat) (failed : Bool)
deriving DecidableEq, Repr

/-- Write a file's content into a content-addressed view of the disk. -/
def writeFile (fs : String → Option (List Nat)) (p : String) (bs : List Nat) :
    String → Option (List Nat) :=
  fun q => if q = p then some bs else fs q

/-- `downloadFromS3(ctx, key, localPath)` at byte granularity: on a
`GetObject` error nothing is written; otherwise `os.Create(localPath)`
creates/truncates the destination at its final path and `io.Copy` streams
the body into it, so whatever was delivered before a mid-transfer failure
remains at `localPath`.  Returns the updated disk and whether the call
succeeded. -/
def downloadFromS3Go (fs : String → Option (List Nat)) (localPath : String)
    (res : GetObjectResult) : (String → Option (List Nat)) × Bool :=
  match res with
  | .err => (fs, false)
  | .body delivered failed => (writeFile fs localPath delivered, !failed)

/-! ## The remote lister -/

/-- One `ListObjectsV2` page: the store returns at most `maxKeys` keys
(AWS default 1000) plus an `IsTruncated` marker. -/
def listObjectsV2 (bucket : List String) (maxKeys : Nat) : List String × Bool :=
  (bucket.take maxKeys, decide (maxKeys < bucket.length))

/-- The key set `syncFromS3` actually uses: it issues a single
`ListObjectsV2` call and reads `resp.Contents`, with no continuation-token
loop and no `IsTruncated` check. -/
def listRemoteKeysGo (bucket : List String) (maxKeys : Nat) : List String :=
  (listObjectsV2 bucket maxKeys).1

/-! ## Reference insertion sort

`goldSort` is the list-level form of the insertion sort that `sort.Slice`
runs for slices of length at most 12 (`insertionSort_func`); the equivalence
is proved below.  `insertOrd` places an element after every element of
smaller-or-equal name, which is the resting point of the
`Swap`-until-not-less inner loop. -/

/-- Insert `x` into the sorted list `acc` after all entries whose name is
less than or equal to `x`'s. -/
def insertOrd (x : MediaFile) (acc : List MediaFile) : List MediaFile :=
  acc.takeWhile (fun e => !nameLt x e) ++ x :: acc.dropWhile (fun e => !nameLt x e)

/-- Left-to-right insertion sort on lists. -/
def goldSort (l : List MediaFile) : List MediaFile :=
  l.foldl (fun acc x => insertOrd x acc) []

/-- Name order on entries, the order `scanMedia` sorts by ("ascending by
name"). -/
def nameLe (x y : MediaFile) : Prop := x.Name.data ≤ y.Name.data

/-- The filter picking out the entries with a given name, used to state
tie-stability. -/
def withName (n : String) (l : List MediaFile) : List MediaFile :=
  l.filter (fun e => e.Name == n)

/-! ## Concrete fixtures used by witnesses and counterexamples -/

/-- A download environment in which every fetch succeeds. -/
def exDlOk : String → DlOutcome := fun _ => DlOutcome.ok

/-- The inventory entry for `media/a.mp4`. -/
def exA : MediaFile := ⟨"a.mp4", "media/a.mp4", "/media/a.mp4"⟩

/-- The inventory entry for `media/b.mp4`. -/
def exB : MediaFile := ⟨"b.mp4", "media/b.mp4", "/media/b.mp4"⟩

/-- A walk in which the second visited entry reports an I/O error and a
valid media file follows it. -/
def evsErr : List WalkEntry :=
  [⟨"media/a.mp4", "a.mp4", false, false⟩,
   ⟨"media/sub", "sub", true, true⟩,
   ⟨"media/b.mp4", "b.mp4", false, false⟩]

/-- The error-free walk over `media/a.mp4`, `media/b.mp4`. -/
def evsOk2 : List WalkEntry :=
  [⟨"media", "media", true, false⟩,
   ⟨"media/a.mp4", "a.mp4", false, false⟩,
   ⟨"media/b.mp4", "b.mp4", false, false⟩]

/-- A small error-free walk with a duplicated name across two
subdirectories (3 collected entries). -/
def evsSmall : List WalkEntry :=
  [⟨"media", "media", true, false⟩,
   ⟨"media/d0", "d0", true, false⟩,
   ⟨"media/d0/dup.mp4", "dup.mp4", false, false⟩,
   ⟨"media/d1", "d1", true, false⟩,
   ⟨"media/d1/dup.mp4", "dup.mp4", false, false⟩,
   ⟨"media/d1/z.mp4", "z.mp4", false, false⟩]

/-- An error-free walk over 13 single-file subdirectories (visited in
lexical order `d00 … d12`), with the name `dup.mp4` appearing in `d00` and
`d06`.  13 entries exceed `sort.Slice`'s insertion-sort cutoff of 12, so the
unstable partitioning runs. -/
def evsTie : List WalkEntry :=
  [⟨"media", "media", true, false⟩,
   ⟨"media/d00", "d00", true, false⟩,
   ⟨"media/d00/dup.mp4", "dup.mp4", false, false⟩,
   ⟨"media/d01", "d01", true, false⟩,
   ⟨"media/d01/m.mp4", "m.mp4", false, false⟩,
   ⟨"media/d02", "d02", true, false⟩,
   ⟨"media/d02/c.mp4", "c.mp4", false, false⟩,
   ⟨"media/d03", "d03", true, false⟩,
   ⟨"media/d03/k.mp4", "k.mp4", false, false⟩,
   ⟨"media/d04", "d04", true, false⟩,
   ⟨"media/d04/e.mp4", "e.mp4", false, false⟩,
   ⟨"media/d05", "d05", true, false⟩,
   ⟨"media/d05/a.mp4", "a.mp4", false, false⟩,
   ⟨"media/d06", "d06", true, false⟩,
   ⟨"media/d06/dup.mp4", "dup.mp4", false, false⟩,
   ⟨"media/d07", "d07", true, false⟩,
   ⟨"media/d07/h.mp4", "h.mp4", false, false⟩,
   ⟨"media/d08", "d08", true, false⟩,
   ⟨"media/d08/b.mp4", "b.mp4", false, false⟩,
   ⟨"media/d09", "d09", true, false⟩,
   ⟨"media/d09/j.mp4", "j.mp4", false, false⟩,
   ⟨"media/d10", "d10", true, false⟩,
   ⟨"media/d10/d.mp4", "d.mp4", false, false⟩,
   ⟨"media/d11", "d11", true, false⟩,
   ⟨"media/d11/g.mp4", "g.mp4", false, false⟩,
   ⟨"media/d12", "d12", true, false⟩,
   ⟨"media/d12/f.mp4", "f.mp4", false, false⟩]

/-! ## Permutation facts about the `sort.Slice` model

Every mutation the algorithm performs is a `swapL`, so each phase produces a
permutation of its input. -/

/-- Replacing position `m` by `x` while moving the old inhabitant to the
front is a permutation of consing `x`. -/
theorem getD_set_perm (x : MediaFile) :
    ∀ (t : List MediaFile) (m : Nat), m < t.length →
      List.Perm (t.getD m default :: t.set m x) (x :: t) := by
  intro t
  induction t with
  | nil => intro m hm; simp at hm
  | cons y t' ih =>
    intro m hm
    cases m with
    | zero => simpa using List.Perm.swap x y t'
    | succ k =>
      simp only [List.getD_cons_succ, List.set_cons_succ]
      refine (List.Perm.swap y (t'.getD k default) (t'.set k x)).trans ?_
      refine (List.Perm.cons y (ih k ?_)).trans (List.Perm.swap x y t')
      simpa using hm

/-- The in-bounds double-`set` underlying `swapL` is a permutation. -/
theorem set_set_perm :
    ∀ (l : List MediaFile) (i j : Nat), i < l.length → j < l.length →
      List.Perm ((l.set i (getN l j)).set j (getN l i)) l := by
  intro l
  induction l with
  | nil => intro i j hi; simp at hi
  | cons x t ih =>
    intro i j hi hj
    cases i with
    | zero =>
      cases j with
      | zero => simp [getN]
      | succ m =>
        simp only [getN, List.getD_cons_succ, List.getD_cons_zero,
          List.set_cons_zero, List.set_cons_succ]
        exact getD_set_perm x t m (by simpa using hj)
    | succ n =>
      cases j with
      | zero =>
        simp only [getN, List.getD_cons_succ, List.getD_cons_zero,
          List.set_cons_zero, List.set_cons_succ]
        exact getD_set_perm x t n (by simpa using hi)
      | succ m =>
        simp only [getN, List.getD_cons_succ, List.set_cons_succ]
        exact List.Perm.cons x (ih n m (by simpa using hi) (by simpa using hj))

/-- `swapL` permutes. -/
theorem swapL_perm (l : List MediaFile) (i j : Nat) : List.Perm (swapL l i j) l := by
  unfold swapL
  split
  · next h => exact set_set_perm l i j h.1 h.2
  · exact List.Perm.refl l

/-- The insertion-sort inner loop permutes. -/
theorem bubble_perm (a : Nat) : ∀ (j : Nat) (l : List MediaFile), List.Perm (bubble a j l) l := by
  intro j
  induction j with
  | zero => intro l; exact List.Perm.refl l
  | succ j ih =>
    intro l
    unfold bubble
    split
    · exact (ih _).trans (swapL_perm l (j + 1) j)
    · exact List.Perm.refl l

/-- The insertion-sort outer loop permutes. -/
theorem insLoop_perm (a b : Nat) :
    ∀ (fuel i : Nat) (l : List MediaFile), List.Perm (insLoop a b i fuel l) l := by
  intro fuel
  induction fuel with
  | zero => intro i l; exact List.Perm.refl l
  | succ fuel ih =>
    intro i l
    unfold insLoop
    split
    · exact (ih _ _).trans (bubble_perm a i l)
    · exact List.Perm.refl l

/-- `insertionSort_func` permutes. -/
theorem insertionSortF_perm (a b : Nat) (l : List MediaFile) :
    List.Perm (insertionSortF a b l) l := insLoop_perm a b b (a + 1) l

/-- `siftDown_func` permutes. -/
theorem siftDownLoop_perm (first hi : Nat) :
    ∀ (fuel root : Nat) (l : List MediaFile), List.Perm (siftDownLoop first hi fuel root l) l := by
  intro fuel
  induction fuel with
  | zero => intro root l; exact List.Perm.refl l
  | succ fuel ih =>
    intro root l
    simp only [siftDownLoop]
    split
    · exact List.Perm.refl l
    · split <;> split <;>
        first
        | exact List.Perm.refl l
        | exact (ih _ _).trans (swapL_perm l _ _)

/-- The heap-construction loop permutes. -/
theorem heapBuild_perm (first hi : Nat) :
    ∀ (c : Nat) (l : List MediaFile), List.Perm (heapBuild first hi c l) l := by
  intro c
  induction c with
  | zero => intro l; exact List.Perm.refl l
  | succ i ih =>
    intro l
    exact (ih _).trans (siftDownLoop_perm first hi hi i l)

/-- The heap pop loop permutes. -/
theorem heapPop_perm (first : Nat) :
    ∀ (c : Nat) (l : List MediaFile), List.Perm (heapPop first c l) l := by
  intro c
  induction c with
  | zero => intro l; exact List.Perm.refl l
  | succ i ih =>
    intro l
    exact (ih _).trans (((siftDownLoop_perm first i i 0 _).trans (swapL_perm _ _ _)))

/-- `heapSort_func` permutes. -/
theorem heapSortF_perm (a b : Nat) (l : List MediaFile) : List.Perm (heapSortF a b l) l :=
  (heapPop_perm a _ _).trans (heapBuild_perm a _ _ l)

/-- `reverseRange_func` permutes. -/
theorem reverseRangeLoop_perm :
    ∀ (fuel i j : Nat) (l : List MediaFile), List.Perm (reverseRangeLoop fuel i j l) l := by
  intro fuel
  induction fuel with
  | zero => intro i j l; exact List.Perm.refl l
  | succ fuel ih =>
    intro i j l
    unfold reverseRangeLoop
    split
    · exact (ih _ _ _).trans (swapL_perm l i j)
    · exact List.Perm.refl l

/-- `reverseRange_func` permutes. -/
theorem reverseRangeF_perm (a b : Nat) (l : List MediaFile) : List.Perm (reverseRangeF a b l) l :=
  reverseRangeLoop_perm b a (b - 1) l

/-- The left-shift loop of `partialInsertionSort_func` permutes. -/
theorem shiftLeft_perm : ∀ (j : Nat) (l : List MediaFile), List.Perm (shiftLeft j l) l := by
  intro j
  induction j with
  | zero => intro l; exact List.Perm.refl l
  | succ j ih =>
    intro l
    unfold shiftLeft
    split
    · exact (ih _).trans (swapL_perm l (j + 1) j)
    · exact List.Perm.refl l

/-- The right-shift loop of `partialInsertionSort_func` permutes. -/
theorem shiftRight_perm (b : Nat) :
    ∀ (fuel j : Nat) (l : List MediaFile), List.Perm (shiftRight b fuel j l) l := by
  intro fuel
  induction fuel with
  | zero => intro j l; exact List.Perm.refl l
  | succ fuel ih =>
    intro j l
    unfold shiftRight
    split
    · split
      · exact List.Perm.refl l
      · exact (ih _ _).trans (swapL_perm l j (j - 1))
    · exact List.Perm.refl l

/-- `partialInsertionSort_func` permutes. -/
theorem partInsSortF_perm (a b : Nat) :
    ∀ (step i : Nat) (l : List MediaFile), List.Perm (partInsSortF a b step i l).1 l := by
  intro step
  induction step with
  | zero => intro i l; exact List.Perm.refl l
  | succ step ih =>
    intro i l
    simp only [partInsSortF]
    split
    · exact List.Perm.refl l
    · split
      · exact List.Perm.refl l
      · refine (ih _ _).trans ?_
        split <;> split <;>
          first
          | exact ((shiftRight_perm b b _ _).trans (shiftLeft_perm _ _)).trans (swapL_perm _ _ _)
          | exact (shiftRight_perm b b _ _).trans (swapL_perm _ _ _)
          | exact (shiftLeft_perm _ _).trans (swapL_perm _ _ _)
          | exact swapL_perm _ _ _

/-- The `partitionEqual_func` loop permutes. -/
theorem peqLoop_perm (a b : Nat) :
    ∀ (fuel i j : Nat) (l : List MediaFile), List.Perm (peqLoop a b fuel i j l).2 l := by
  intro fuel
  induction fuel with
  | zero => intro i j l; exact List.Perm.refl l
  | succ fuel ih =>
    intro i j l
    simp only [peqLoop]
    split
    · exact List.Perm.refl l
    · exact (ih _ _ _).trans (swapL_perm l _ _)

/-- `partitionEqual_func` permutes. -/
theorem partitionEqualF_perm (a b pivot : Nat) (l : List MediaFile) :
    List.Perm (partitionEqualF a b pivot l).2 l :=
  (peqLoop_perm a b b _ _ _).trans (swapL_perm l a pivot)

/-- The `partition_func` main loop permutes. -/
theorem partLoop_perm (a b : Nat) :
    ∀ (fuel i j : Nat) (l : List MediaFile), List.Perm (partLoop a b fuel i j l).2 l := by
  intro fuel
  induction fuel with
  | zero => intro i j l; exact List.Perm.refl l
  | succ fuel ih =>
    intro i j l
    simp only [partLoop]
    split
    · exact List.Perm.refl l
    · exact (ih _ _ _).trans (swapL_perm l _ _)

/-- `partition_func` permutes. -/
theorem partitionF_perm (a b pivot : Nat) (l : List MediaFile) :
    List.Perm (partitionF a b pivot l).2.2 l := by
  simp only [partitionF]
  split
  · exact (swapL_perm _ _ _).trans (swapL_perm l a pivot)
  · rcases h : partLoop a b b (partScanI (swapL l a pivot) a (b - 1) b (a + 1) + 1)
      (partScanJ (swapL l a pivot) a (partScanI (swapL l a pivot) a (b - 1) b (a + 1)) b (b - 1) - 1)
      (swapL (swapL l a pivot) (partScanI (swapL l a pivot) a (b - 1) b (a + 1))
        (partScanJ (swapL l a pivot) a (partScanI (swapL l a pivot) a (b - 1) b (a + 1)) b (b - 1)))
      with ⟨j2, l2⟩
    have hp := partLoop_perm a b b (partScanI (swapL l a pivot) a (b - 1) b (a + 1) + 1)
      (partScanJ (swapL l a pivot) a (partScanI (swapL l a pivot) a (b - 1) b (a + 1)) b (b - 1) - 1)
      (swapL (swapL l a pivot) (partScanI (swapL l a pivot) a (b - 1) b (a + 1))
        (partScanJ (swapL l a pivot) a (partScanI (swapL l a pivot) a (b - 1) b (a + 1)) b (b - 1)))
    rw [h] at hp
    simp only [h]
    exact (swapL_perm l2 j2 a).trans
      ((hp.trans (swapL_perm _ _ _)).trans (swapL_perm l a pivot))

/-- `breakPatterns_func` permutes. -/
theorem breakPatterns_perm (a b : Nat) (l : List MediaFile) : List.Perm (breakPatterns a b l) l := by
  simp only [breakPatterns]
  split
  · simp only [List.foldl_cons, List.foldl_nil]
    exact ((swapL_perm _ _ _).trans (swapL_perm _ _ _)).trans (swapL_perm _ _ _)
  · exact List.Perm.refl l

/-- `pdqBreak` permutes. -/
theorem pdqBreak_perm (wb : Bool) (a b limit : Nat) (l : List MediaFile) :
    List.Perm (pdqBreak wb a b limit l).1 l := by
  unfold pdqBreak
  split
  · exact breakPatterns_perm a b l
  · exact List.Perm.refl l

/-- `pdqReverse` permutes. -/
theorem pdqReverse_perm (a b pivot : Nat) (hint : SortedHint) (l : List MediaFile) :
    List.Perm (pdqReverse a b pivot hint l).1 l := by
  unfold pdqReverse
  split
  · exact reverseRangeF_perm a b l
  · exact List.Perm.refl l

/-- `pdqTryPIS` permutes. -/
theorem pdqTryPIS_perm (wb wp : Bool) (hint : SortedHint) (a b : Nat) (l : List MediaFile) :
    List.Perm (pdqTryPIS wb wp hint a b l).1 l := by
  unfold pdqTryPIS
  split
  · exact partInsSortF_perm a b 5 (a + 1) l
  · exact List.Perm.refl l

/-- `pdqsort_func` permutes its input for any fuel, limit and flags. -/
theorem pdqsortF_perm :
    ∀ (fuel a b limit : Nat) (wb wp : Bool) (l : List MediaFile),
      List.Perm (pdqsortF fuel a b limit wb wp l) l := by
  intro fuel
  induction fuel with
  | zero => intro a b limit wb wp l; exact List.Perm.refl l
  | succ fuel ih =>
    intro a b limit wb wp l
    rw [pdqsortF]
    split
    · exact insertionSortF_perm a b l
    · split
      · exact heapSortF_perm a b l
      · rcases hbp : pdqBreak wb a b limit l with ⟨l1, limit1⟩
        have hl1 : List.Perm l1 l := by
          have := pdqBreak_perm wb a b limit l
          rw [hbp] at this
          exact this
        rcases hcp : choosePivot l1 a b with ⟨pivot, hint⟩
        rcases hrev : pdqReverse a b pivot hint l1 with ⟨l2, pivot2, hint2⟩
        have hl2 : List.Perm l2 l1 := by
          have := pdqReverse_perm a b pivot hint l1
          rw [hrev] at this
          exact this
        rcases hpis : pdqTryPIS wb wp hint2 a b l2 with ⟨l3, done⟩
        have hl3 : List.Perm l3 l2 := by
          have := pdqTryPIS_perm wb wp hint2 a b l2
          rw [hpis] at this
          exact this
        have hl3l : List.Perm l3 l := (hl3.trans hl2).trans hl1
        simp only [hbp, hcp, hrev, hpis]
        split
        · exact hl3l
        · split
          · rcases hpe : partitionEqualF a b pivot2 l3 with ⟨mid, l4⟩
            have hp4 := partitionEqualF_perm a b pivot2 l3
            rw [hpe] at hp4
            exact (ih _ _ _ _ _ _).trans (hp4.trans hl3l)
          · rcases hpt : partitionF a b pivot2 l3 with ⟨mid, ap, l4⟩
            have hp4 := partitionF_perm a b pivot2 l3
            rw [hpt] at hp4
            split
            · exact (ih _ _ _ _ _ _).trans ((ih _ _ _ _ _ _).trans (hp4.trans hl3l))
            · exact (ih _ _ _ _ _ _).trans ((ih _ _ _ _ _ _).trans (hp4.trans hl3l))

/-- `sort.Slice` permutes its input: every published inventory is a
rearrangement of the collected entries. -/
theorem sortSlice_perm (l : List MediaFile) : List.Perm (sortSlice l) l :=
  pdqsortF_perm (l.length + 1) 0 l.length (bitsLen l.length) true true l

/-! ## The insertion-sort path of `sort.Slice`

For at most 12 elements `pdqsort_func` immediately runs
`insertionSort_func`, whose bubbling inner loop realizes an ordered
insertion; `goldSort` is its list-level description.  Name order is handled
on the character lists (`LinearOrder (List Char)`), the order Go's byte-wise
string `<` induces here. -/

/-- `nameLt` decides the strict name order. -/
theorem nameLt_iff (x y : MediaFile) : nameLt x y = true ↔ x.Name.data < y.Name.data := by
  rw [nameLt]
  exact decide_eq_true_iff

/-- `nameLt` is `false` exactly on the reflected non-strict order. -/
theorem nameLt_eq_false_iff (x y : MediaFile) :
    nameLt x y = false ↔ y.Name.data ≤ x.Name.data := by
  rw [← Bool.not_eq_true, nameLt_iff, not_lt]

/-- Elements surviving `insertOrd`'s `dropWhile` have names strictly above
`x`'s, provided the accumulator is sorted. -/
theorem mem_dropWhile_nameLt (x : MediaFile) :
    ∀ (acc : List MediaFile), List.Pairwise nameLe acc →
      ∀ e ∈ acc.dropWhile (fun e => !nameLt x e), x.Name.data < e.Name.data := by
  intro acc
  induction acc with
  | nil => intro _ e he; simp [List.dropWhile] at he
  | cons a t ih =>
    intro hs e he
    rcases List.pairwise_cons.mp hs with ⟨ha, ht⟩
    rw [List.dropWhile_cons] at he
    by_cases hlt : nameLt x a = true
    · simp only [hlt, Bool.not_true, Bool.false_eq_true, reduceIte] at he
      rcases List.mem_cons.mp he with rfl | he'
      · exact (nameLt_iff x e).mp hlt
      · exact lt_of_lt_of_le ((nameLt_iff x a).mp hlt) (ha e he')
    · rw [Bool.not_eq_true] at hlt
      simp only [hlt, Bool.not_false, reduceIte] at he
      exact ih ht e he

/-- All elements kept by `insertOrd`'s `takeWhile` have names at most
`x`'s. -/
theorem mem_takeWhile_nameLe (x : MediaFile) (acc : List MediaFile) :
    ∀ e ∈ acc.takeWhile (fun e => !nameLt x e), e.Name.data ≤ x.Name.data := by
  intro e he
  have h := List.mem_takeWhile_imp he
  rw [Bool.not_eq_true'] at h
  exact (nameLt_eq_false_iff x e).mp h

/-- `insertOrd` inserts: the result is a permutation of consing. -/
theorem insertOrd_perm (x : MediaFile) (acc : List MediaFile) :
    List.Perm (insertOrd x acc) (x :: acc) := by
  unfold insertOrd
  refine List.perm_middle.trans ?_
  rw [List.takeWhile_append_dropWhile]

/-- `insertOrd` grows the accumulator by one. -/
theorem insertOrd_length (x : MediaFile) (acc : List MediaFile) :
    (insertOrd x acc).length = acc.length + 1 :=
  ((insertOrd_perm x acc).length_eq).trans (by simp)

/-- `insertOrd` preserves sortedness by name. -/
theorem insertOrd_sorted (x : MediaFile) (acc : List MediaFile)
    (hs : List.Pairwise nameLe acc) : List.Pairwise nameLe (insertOrd x acc) := by
  unfold insertOrd
  have htake := hs.sublist (List.takeWhile_sublist (fun e => !nameLt x e))
  have hdrop := hs.sublist (List.dropWhile_sublist (fun e => !nameLt x e))
  have hsplit : ∀ u ∈ acc.takeWhile (fun e => !nameLt x e),
      ∀ v ∈ acc.dropWhile (fun e => !nameLt x e), nameLe u v := by
    have h2 : List.Pairwise nameLe
        (acc.takeWhile (fun e => !nameLt x e) ++ acc.dropWhile (fun e => !nameLt x e)) := by
      rw [List.takeWhile_append_dropWhile]
      exact hs
    exact (List.pairwise_append.mp h2).2.2
  rw [List.pairwise_append]
  refine ⟨htake, List.pairwise_cons.mpr ⟨?_, hdrop⟩, ?_⟩
  · intro v hv
    exact le_of_lt (mem_dropWhile_nameLt x acc hs v hv)
  · intro u hu v hv
    rcases List.mem_cons.mp hv with hveq | hv'
    · rw [hveq]
      exact mem_takeWhile_nameLe x acc u hu
    · exact hsplit u hu v hv'

/-- The filtered view of an `insertOrd`: a tie lands after the existing
entries with the same name. -/
theorem withName_insertOrd (n : String) (x : MediaFile) (acc : List MediaFile)
    (hs : List.Pairwise nameLe acc) :
    withName n (insertOrd x acc) =
      withName n acc ++ (if x.Name == n then [x] else []) := by
  unfold withName insertOrd
  rw [List.filter_append, List.filter_cons]
  have hacc : List.filter (fun e => e.Name == n) acc =
      List.filter (fun e => e.Name == n) (acc.takeWhile (fun e => !nameLt x e)) ++
        List.filter (fun e => e.Name == n) (acc.dropWhile (fun e => !nameLt x e)) := by
    rw [← List.filter_append, List.takeWhile_append_dropWhile]
  by_cases hx : (x.Name == n) = true
  · rw [if_pos hx, if_pos hx]
    have hdrop : List.filter (fun e => e.Name == n)
        (acc.dropWhile (fun e => !nameLt x e)) = [] := by
      rw [List.filter_eq_nil_iff]
      intro e he
      have hxe := mem_dropWhile_nameLt x acc hs e he
      have hxn : x.Name = n := by simpa using hx
      rw [hxn] at hxe
      simp only [beq_iff_eq]
      intro h
      rw [h] at hxe
      exact absurd hxe (lt_irrefl _)
    rw [hdrop, hacc, hdrop]
    simp
  · rw [if_neg hx, if_neg hx, hacc]
    simp

/-- Indexing just past a prefix reads the cons head. -/
theorem getN_append_cons (x : MediaFile) (B : List MediaFile) :
    ∀ (A : List MediaFile), getN (A ++ x :: B) A.length = x := by
  intro A
  induction A with
  | nil => rfl
  | cons a A' ih => simpa [getN, List.getD_cons_succ] using ih

/-- Setting just past a prefix replaces the cons head. -/
theorem set_append_cons (x v : MediaFile) (B : List MediaFile) :
    ∀ (A : List MediaFile), (A ++ x :: B).set A.length v = A ++ v :: B := by
  intro A
  induction A with
  | nil => rfl
  | cons a A' ih => simp [List.set_cons_succ, ih]

/-- The one swap the insertion bubble performs: exchanging the element with
its left neighbour. -/
theorem swapL_adjacent (ys : List MediaFile) (y x : MediaFile) (post : List MediaFile) :
    swapL (ys ++ y :: x :: post) (ys.length + 1) ys.length = ys ++ x :: y :: post := by
  have hassoc : ys ++ y :: x :: post = (ys ++ [y]) ++ x :: post := by simp
  have hlen1 : (ys ++ [y]).length = ys.length + 1 := by simp
  have hget1 : getN (ys ++ y :: x :: post) (ys.length + 1) = x := by
    rw [hassoc, ← hlen1]
    exact getN_append_cons x post (ys ++ [y])
  have hget0 : getN (ys ++ y :: x :: post) ys.length = y :=
    getN_append_cons y (x :: post) ys
  unfold swapL
  rw [if_pos]
  · rw [hget1, hget0]
    have hset1 : (ys ++ y :: x :: post).set (ys.length + 1) y = ys ++ y :: y :: post := by
      rw [hassoc, ← hlen1, set_append_cons x y post (ys ++ [y])]
      simp
    rw [hset1]
    exact set_append_cons y x (y :: post) ys
  · constructor <;> simp

/-- `takeWhile` ignores an appended element that fails the predicate. -/
theorem takeWhile_append_singleton {α : Type} (p : α → Bool) (y : α) (hy : p y = false) :
    ∀ (ys : List α), (ys ++ [y]).takeWhile p = ys.takeWhile p := by
  intro ys
  induction ys with
  | nil => simp [List.takeWhile_cons, hy]
  | cons a ys' ih =>
    simp only [List.cons_append, List.takeWhile_cons]
    split
    · rw [ih]
    · rfl

/-- `dropWhile` keeps an appended element that fails the predicate. -/
theorem dropWhile_append_singleton {α : Type} (p : α → Bool) (y : α) (hy : p y = false) :
    ∀ (ys : List α), (ys ++ [y]).dropWhile p = ys.dropWhile p ++ [y] := by
  intro ys
  induction ys with
  | nil => simp [List.dropWhile_cons, hy]
  | cons a ys' ih =>
    simp only [List.cons_append, List.dropWhile_cons]
    split
    · rw [ih]
    · rfl

/-- One pass of the `insertionSort_func` inner loop inserts the pending
element into the sorted prefix at its `insertOrd` position. -/
theorem bubble_insert (x : MediaFile) :
    ∀ (pre : List MediaFile), List.Pairwise nameLe pre →
      ∀ (post : List MediaFile),
        bubble 0 pre.length (pre ++ x :: post) = insertOrd x pre ++ post := by
  intro pre
  induction pre using List.reverseRecOn with
  | nil => intro _ post; rfl
  | append_singleton ys y ih =>
    intro hs post
    have hys : List.Pairwise nameLe ys := (List.pairwise_append.mp hs).1
    have hley : ∀ e ∈ ys, nameLe e y := fun e he =>
      (List.pairwise_append.mp hs).2.2 e he y (List.mem_singleton_self y)
    have hlen : (ys ++ [y]).length = ys.length + 1 := by simp
    have hflat : (ys ++ [y]) ++ x :: post = ys ++ y :: x :: post := by simp
    rw [hlen, hflat]
    simp only [bubble]
    have hget1 : getN (ys ++ y :: x :: post) (ys.length + 1) = x := by
      rw [show ys ++ y :: x :: post = (ys ++ [y]) ++ x :: post from by simp, ← hlen]
      exact getN_append_cons x post (ys ++ [y])
    have hget0 : getN (ys ++ y :: x :: post) ys.length = y :=
      getN_append_cons y (x :: post) ys
    have hless : lessAt (ys ++ y :: x :: post) (ys.length + 1) ys.length = nameLt x y := by
      unfold lessAt
      rw [hget1, hget0]
    rw [show (decide (0 < ys.length + 1) : Bool) = true from by simp, hless]
    by_cases hxy : nameLt x y = true
    · rw [hxy]
      simp only [Bool.true_and, if_true]
      rw [swapL_adjacent ys y x post, ih hys (y :: post)]
      have hy : (fun e => !nameLt x e) y = false := by simp [hxy]
      rw [insertOrd, insertOrd, takeWhile_append_singleton _ y hy ys,
        dropWhile_append_singleton _ y hy ys]
      simp
    · rw [Bool.not_eq_true] at hxy
      rw [hxy]
      simp only [Bool.true_and, Bool.false_eq_true, if_false]
      have hall : ∀ e ∈ ys ++ [y], (fun e => !nameLt x e) e = true := by
        intro e he
        rcases List.mem_append.mp he with he' | he'
        · have h1 : e.Name.data ≤ y.Name.data := hley e he'
          have h2 : y.Name.data ≤ x.Name.data := (nameLt_eq_false_iff x y).mp hxy
          have : nameLt x e = false := (nameLt_eq_false_iff x e).mpr (le_trans h1 h2)
          simp [this]
        · rw [List.mem_singleton.mp he']
          simp [hxy]
      rw [insertOrd, List.takeWhile_eq_self_iff.mpr hall, List.dropWhile_eq_nil_iff.mpr hall]
      simp

/-- The `insertionSort_func` outer loop folds `insertOrd` over the pending
suffix. -/
theorem insLoop_gold :
    ∀ (rest acc : List MediaFile) (fuel : Nat),
      List.Pairwise nameLe acc → rest.length ≤ fuel →
      insLoop 0 (acc.length + rest.length) acc.length fuel (acc ++ rest) =
        rest.foldl (fun a x => insertOrd x a) acc := by
  intro rest
  induction rest with
  | nil =>
    intro acc fuel _ _
    cases fuel with
    | zero => simp [insLoop]
    | succ f =>
      simp only [insLoop, List.length_nil, Nat.add_zero, List.append_nil, List.foldl_nil]
      rw [if_neg (lt_irrefl _)]
  | cons x rest' ih =>
    intro acc fuel hs hf
    cases fuel with
    | zero => simp at hf
    | succ f =>
      simp only [insLoop]
      rw [if_pos (by simp)]
      rw [bubble_insert x acc hs rest']
      have hlb : acc.length + (x :: rest').length = (insertOrd x acc).length + rest'.length := by
        rw [insertOrd_length]
        simp
        omega
      have hli : acc.length + 1 = (insertOrd x acc).length := (insertOrd_length x acc).symm
      rw [hlb, hli, ih (insertOrd x acc) f (insertOrd_sorted x acc hs) (by simpa using hf)]
      rfl

/-- `insertionSort_func` over the whole slice computes `goldSort`. -/
theorem insertionSortF_gold (l : List MediaFile) :
    insertionSortF 0 l.length l = goldSort l := by
  cases l with
  | nil => rfl
  | cons x t =>
    unfold insertionSortF
    simp only [List.length_cons]
    have h := insLoop_gold t [x] (1 + t.length) (by simp) (by omega)
    simp only [List.length_singleton, List.singleton_append] at h
    rw [show t.length + 1 = 1 + t.length from Nat.add_comm _ _]
    rw [show (0 + 1 : Nat) = 1 from rfl]
    rw [h]
    rfl

/-- For at most 12 elements (the `maxInsertion` bound), `sort.Slice` is
exactly the insertion sort, i.e. `goldSort`. -/
theorem sortSlice_of_length_le (l : List MediaFile) (h : l.length ≤ 12) :
    sortSlice l = goldSort l := by
  unfold sortSlice
  rw [pdqsortF]
  rw [if_pos (show l.length - 0 ≤ 12 from by simpa using h)]
  exact insertionSortF_gold l

/-- Folding `insertOrd` keeps the accumulator sorted. -/
theorem foldl_insertOrd_sorted :
    ∀ (rest acc : List MediaFile), List.Pairwise nameLe acc →
      List.Pairwise nameLe (rest.foldl (fun a x => insertOrd x a) acc) := by
  intro rest
  induction rest with
  | nil => intro acc hs; exact hs
  | cons x rest' ih =>
    intro acc hs
    exact ih (insertOrd x acc) (insertOrd_sorted x acc hs)

/-- `goldSort` sorts by name. -/
theorem goldSort_sorted (l : List MediaFile) : List.Pairwise nameLe (goldSort l) :=
  foldl_insertOrd_sorted l [] List.Pairwise.nil

/-- Folding `insertOrd` permutes accumulator plus suffix. -/
theorem foldl_insertOrd_perm :
    ∀ (rest acc : List MediaFile),
      List.Perm (rest.foldl (fun a x => insertOrd x a) acc) (acc ++ rest) := by
  intro rest
  induction rest with
  | nil => intro acc; simp
  | cons x rest' ih =>
    intro acc
    refine (ih (insertOrd x acc)).trans ?_
    refine (List.Perm.append_right rest' (insertOrd_perm x acc)).trans ?_
    exact List.perm_middle.symm

/-- `goldSort` permutes its input. -/
theorem goldSort_perm (l : List MediaFile) : List.Perm (goldSort l) l := by
  have h := foldl_insertOrd_perm l []
  simpa [goldSort] using h

/-- Folding `insertOrd` is stable: the entries carrying any fixed name
appear in their original relative order, after those already in the
accumulator. -/
theorem foldl_insertOrd_withName (n : String) :
    ∀ (rest acc : List MediaFile), List.Pairwise nameLe acc →
      withName n (rest.foldl (fun a x => insertOrd x a) acc) =
        withName n acc ++ withName n rest := by
  intro rest
  induction rest with
  | nil => intro acc _; simp [withName]
  | cons x rest' ih =>
    intro acc hs
    rw [List.foldl_cons, ih (insertOrd x acc) (insertOrd_sorted x acc hs),
      withName_insertOrd n x acc hs]
    rw [show withName n (x :: rest') =
      (if x.Name == n then [x] else []) ++ withName n rest' from by
        unfold withName
        rw [List.filter_cons]
        split
        · rfl
        · rfl]
    simp

/-- `goldSort` is tie-stable. -/
theorem goldSort_withName (n : String) (l : List MediaFile) :
    withName n (goldSort l) = withName n l := by
  have h := foldl_insertOrd_withName n l [] List.Pairwise.nil
  simpa [goldSort, withName] using h

/-! ## Walk and rescan facts -/

/-- The walk never gets past its first error: everything after it is
ignored. -/
theorem walkCollect_stops (mediaDir : String) :
    ∀ (evs : List WalkEntry),
      walkCollect mediaDir evs = walkCollect mediaDir (evs.takeWhile (fun e => !e.err)) := by
  intro evs
  induction evs with
  | nil => rfl
  | cons e es ih =>
    rw [List.takeWhile_cons]
    by_cases he : e.err = true
    · simp [walkCollect, he]
    · rw [Bool.not_eq_true] at he
      simp only [walkCollect, he, Bool.not_false, reduceIte, Bool.false_eq_true]
      split
      · rw [ih]
      · rw [ih]

/-- On an error-free event stream the walk collects exactly the accepted
entries. -/
theorem walkCollect_of_no_err (mediaDir : String) :
    ∀ (evs : List WalkEntry), (∀ e ∈ evs, e.err = false) →
      walkCollect mediaDir evs =
        evs.filterMap (fun e => if isMediaEntry e then some (mkMediaFile mediaDir e) else none) := by
  intro evs
  induction evs with
  | nil => intro _; rfl
  | cons e es ih =>
    intro h
    have he : e.err = false := h e (List.mem_cons_self e es)
    have hes : ∀ e' ∈ es, e'.err = false := fun e' he' => h e' (List.mem_cons_of_mem e he')
    simp only [walkCollect, he, Bool.false_eq_true, reduceIte, List.filterMap_cons]
    split
    · rw [ih hes]
    · rw [ih hes]

/-- Every collected entry comes from one of the walked events. -/
theorem mem_walkCollect (mediaDir : String) :
    ∀ (evs : List WalkEntry) (f : MediaFile), f ∈ walkCollect mediaDir evs →
      ∃ e ∈ evs, f = mkMediaFile mediaDir e := by
  intro evs
  induction evs with
  | nil => intro f hf; simp [walkCollect] at hf
  | cons e es ih =>
    intro f hf
    simp only [walkCollect] at hf
    split at hf
    · simp at hf
    · split at hf
      · rcases List.mem_cons.mp hf with hfe | hf'
        · exact ⟨e, List.mem_cons_self e es, hfe⟩
        · rcases ih f hf' with ⟨e', he', hfe'⟩
          exact ⟨e', List.mem_cons_of_mem e he', hfe'⟩
      · rcases ih f hf with ⟨e', he', hfe'⟩
        exact ⟨e', List.mem_cons_of_mem e he', hfe'⟩

/-- `insStr` inserts: permutation of consing. -/
theorem insStr_perm (x : String) :
    ∀ (l : List String), List.Perm (insStr x l) (x :: l) := by
  intro l
  induction l with
  | nil => exact List.Perm.refl [x]
  | cons y ys ih =>
    unfold insStr
    split
    · exact List.Perm.refl _
    · exact (List.Perm.cons y ih).trans (List.Perm.swap x y ys)

/-- The modelled walk order visits exactly the disk's paths. -/
theorem sortStrings_perm :
    ∀ (l : List String), List.Perm (sortStrings l) l := by
  intro l
  induction l with
  | nil => exact List.Perm.refl []
  | cons p ps ih =>
    unfold sortStrings at ih ⊢
    exact (insStr_perm p (ps.foldr insStr [])).trans (List.Perm.cons p ih)

/-- Paths of the entries collected from a disk scan: the walked paths that
carry a media extension, in walk order. -/
theorem walkCollect_diskEvents_paths (mediaDir : String) :
    ∀ (ps : List String),
      (walkCollect mediaDir (ps.map fun p => ⟨p, baseName p, false, false⟩)).map (·.Path) =
        ps.filter mediaPath := by
  intro ps
  induction ps with
  | nil => rfl
  | cons p ps' ih =>
    simp only [List.map_cons, walkCollect, Bool.false_eq_true, reduceIte, List.filter_cons]
    by_cases hm : mediaPath p = true
    · simp only [isMediaEntry, hm, Bool.not_false, Bool.true_and, reduceIte, List.map_cons]
      rw [ih]
      rfl
    · rw [Bool.not_eq_true] at hm
      simp only [isMediaEntry, hm, Bool.not_false, Bool.true_and, Bool.false_eq_true, reduceIte]
      rw [ih]

/-- The published paths of a rescan are the disk's media paths (up to the
sort's permutation). -/
theorem scanDisk_paths_perm (mediaDir : String) (disk : List String) :
    List.Perm ((scanDisk mediaDir disk).map (·.Path)) ((sortStrings disk).filter mediaPath) := by
  unfold scanDisk scanMediaGo diskEvents
  refine (List.Perm.map _ (sortSlice_perm _)).trans ?_
  rw [walkCollect_diskEvents_paths]

/-- A rescan publishes only paths that exist on disk. -/
theorem scanDisk_paths_sub (mediaDir : String) (disk : List String) :
    ∀ f ∈ scanDisk mediaDir disk, f.Path ∈ disk := by
  intro f hf
  have h1 : f.Path ∈ (scanDisk mediaDir disk).map (·.Path) := List.mem_map_of_mem _ hf
  have h2 := (scanDisk_paths_perm mediaDir disk).mem_iff.mp h1
  exact (sortStrings_perm disk).mem_iff.mp (List.mem_of_mem_filter h2)

/-- A rescan of a duplicate-free disk publishes duplicate-free paths. -/
theorem scanDisk_paths_nodup (mediaDir : String) (disk : List String)
    (hd : disk.Nodup) : ((scanDisk mediaDir disk).map (·.Path)).Nodup := by
  refine (scanDisk_paths_perm mediaDir disk).nodup_iff.mpr ?_
  exact (((sortStrings_perm disk).nodup_iff.mpr hd).filter _)

/-! ## Facts about the `syncFromS3` key loop and deletion pass -/

/-- The key loop never removes anything from the local filesystem. -/
theorem processKeys_disk_mono (mediaDir : String) (dl : String → DlOutcome) :
    ∀ (ks : List String) (st : ProcSt) (q : String),
      q ∈ st.disk → q ∈ (processKeys mediaDir dl ks st).disk := by
  intro ks
  induction ks with
  | nil => intro st q hq; exact hq
  | cons k ks' ih =>
    intro st q hq
    simp only [processKeys]
    split
    · exact ih _ q hq
    · split
      · exact ih _ q (List.mem_cons_of_mem _ hq)
      · exact ih _ q hq
      · exact ih _ q (List.mem_cons_of_mem _ hq)

/-- With every download succeeding, after the key loop every listed key's
local path exists. -/
theorem processKeys_cover (mediaDir : String) (dl : String → DlOutcome)
    (hdl : ∀ k, dl k = DlOutcome.ok) :
    ∀ (ks : List String) (st : ProcSt) (k : String), k ∈ ks →
      joinPath mediaDir k ∈ (processKeys mediaDir dl ks st).disk := by
  intro ks
  induction ks with
  | nil => intro st k hk; simp at hk
  | cons k' ks' ih =>
    intro st k hk
    simp only [processKeys]
    rcases List.mem_cons.mp hk with rfl | hk'
    · split
      · next hmem => exact processKeys_disk_mono mediaDir dl ks' _ _ hmem
      · rw [hdl k]
        exact processKeys_disk_mono mediaDir dl ks' _ _ (List.mem_cons_self _ _)
    · split
      · exact ih _ k hk'
      · split
        · exact ih _ k hk'
        · exact ih _ k hk'
        · exact ih _ k hk'

/-- The key loop only prunes the removal worklist. -/
theorem processKeys_toRemove_sub (mediaDir : String) (dl : String → DlOutcome) :
    ∀ (ks : List String) (st : ProcSt) (q : String),
      q ∈ (processKeys mediaDir dl ks st).toRemove → q ∈ st.toRemove := by
  intro ks
  induction ks with
  | nil => intro st q hq; exact hq
  | cons k ks' ih =>
    intro st q hq
    simp only [processKeys] at hq
    split at hq
    · have h2 := ih _ q hq
      exact List.erase_subset _ _ h2
    · split at hq
      · have h2 := ih _ q hq
        exact h2
      · have h2 := ih _ q hq
        exact h2
      · have h2 := ih _ q hq
        exact h2

/-- The key loop preserves a duplicate-free removal worklist. -/
theorem processKeys_toRemove_nodup (mediaDir : String) (dl : String → DlOutcome) :
    ∀ (ks : List String) (st : ProcSt), st.toRemove.Nodup →
      (processKeys mediaDir dl ks st).toRemove.Nodup := by
  intro ks
  induction ks with
  | nil => intro st h; exact h
  | cons k ks' ih =>
    intro st h
    simp only [processKeys]
    split
    · exact ih _ (h.erase _)
    · split
      · exact ih _ h
      · exact ih _ h
      · exact ih _ h

/-- A listed key whose local path already exists is pruned from the removal
worklist and never comes back (deletion sets never target synchronized
files). -/
theorem processKeys_prune (mediaDir : String) (dl : String → DlOutcome) :
    ∀ (ks : List String) (st : ProcSt), st.toRemove.Nodup →
      ∀ k ∈ ks, joinPath mediaDir k ∈ st.disk →
        joinPath mediaDir k ∉ (processKeys mediaDir dl ks st).toRemove := by
  intro ks
  induction ks with
  | nil => intro st _ k hk; simp at hk
  | cons k' ks' ih =>
    intro st hnd k hk hdisk
    rcases List.mem_cons.mp hk with rfl | hk'
    · simp only [processKeys]
      rw [if_pos hdisk]
      intro hmem
      have h1 := processKeys_toRemove_sub mediaDir dl ks' _ _ hmem
      exact absurd ((hnd.mem_erase_iff).mp h1).1 (by simp)
    · simp only [processKeys]
      split
      · refine ih _ ?_ k hk' ?_
        · exact hnd.erase _
        · exact hdisk
      · split
        · refine ih _ ?_ k hk' ?_
          · exact hnd
          · exact List.mem_cons_of_mem _ hdisk
        · refine ih _ ?_ k hk' ?_
          · exact hnd
          · exact hdisk
        · refine ih _ ?_ k hk' ?_
          · exact hnd
          · exact List.mem_cons_of_mem _ hdisk

/-- When every listed key's path already exists locally, the key loop is
pure pruning: no downloads, no disk change, no trace, no count. -/
theorem processKeys_all_present (mediaDir : String) (dl : String → DlOutcome) :
    ∀ (ks : List String) (st : ProcSt),
      (∀ k ∈ ks, joinPath mediaDir k ∈ st.disk) →
      (processKeys mediaDir dl ks st).disk = st.disk ∧
      (processKeys mediaDir dl ks st).trace = st.trace ∧
      (processKeys mediaDir dl ks st).syncCount = st.syncCount := by
  intro ks
  induction ks with
  | nil => intro st _; exact ⟨rfl, rfl, rfl⟩
  | cons k ks' ih =>
    intro st h
    simp only [processKeys]
    rw [if_pos (h k (List.mem_cons_self _ _))]
    exact ih _ (fun k' hk' => h k' (List.mem_cons_of_mem _ hk'))

/-- The key loop preserves a duplicate-free disk. -/
theorem processKeys_disk_nodup (mediaDir : String) (dl : String → DlOutcome) :
    ∀ (ks : List String) (st : ProcSt), st.disk.Nodup →
      (processKeys mediaDir dl ks st).disk.Nodup := by
  intro ks
  induction ks with
  | nil => intro st h; exact h
  | cons k ks' ih =>
    intro st h
    simp only [processKeys]
    split
    · exact ih _ h
    · next hnotin =>
      split
      · exact ih _ (List.nodup_cons.mpr ⟨hnotin, h⟩)
      · exact ih _ h
      · exact ih _ (List.nodup_cons.mpr ⟨hnotin, h⟩)

/-- Whatever the key loop appends to the trace is download events for listed
keys. -/
theorem processKeys_trace (mediaDir : String) (dl : String → DlOutcome) :
    ∀ (ks : List String) (st : ProcSt),
      ∃ ds, (processKeys mediaDir dl ks st).trace = st.trace ++ ds ∧
        ∀ e ∈ ds, ∃ k ∈ ks, e = Effect.download k := by
  intro ks
  induction ks with
  | nil => intro st; exact ⟨[], by simp [processKeys], by simp⟩
  | cons k ks' ih =>
    intro st
    simp only [processKeys]
    split
    · rcases ih { st with toRemove := st.toRemove.erase (joinPath mediaDir k) } with ⟨ds, hds, hall⟩
      exact ⟨ds, hds, fun e he => by
        rcases hall e he with ⟨k', hk', he'⟩
        exact ⟨k', List.mem_cons_of_mem _ hk', he'⟩⟩
    · split
      all_goals
        rcases ih _ with ⟨ds, hds, hall⟩
        refine ⟨Effect.download k :: ds, ?_, ?_⟩
        · rw [hds]
          simp
        · intro e he
          rcases List.mem_cons.mp he with rfl | he'
          · exact ⟨k, List.mem_cons_self _ _, rfl⟩
          · rcases hall e he' with ⟨k', hk', he''⟩
            exact ⟨k', List.mem_cons_of_mem _ hk', he''⟩

/-- The deletion pass appends exactly one `remove` event per leftover
path. -/
theorem applyRemovals_trace :
    ∀ (ps : List String) (d : List String) (tr : List Effect),
      (applyRemovals ps (d, tr)).2 = tr ++ ps.map Effect.remove := by
  intro ps
  induction ps with
  | nil => intro d tr; simp [applyRemovals]
  | cons p ps' ih =>
    intro d tr
    simp only [applyRemovals]
    rw [ih]
    simp

/-- The deletion pass only ever removes files. -/
theorem applyRemovals_disk_sub :
    ∀ (ps : List String) (d : List String) (tr : List Effect) (q : String),
      q ∈ (applyRemovals ps (d, tr)).1 → q ∈ d := by
  intro ps
  induction ps with
  | nil => intro d tr q hq; exact hq
  | cons p ps' ih =>
    intro d tr q hq
    simp only [applyRemovals] at hq
    have h2 := ih (d.erase p) (tr ++ [Effect.remove p]) q hq
    exact List.erase_subset _ _ h2

/-- A file not on the worklist survives the deletion pass. -/
theorem applyRemovals_disk_keep :
    ∀ (ps : List String) (d : List String) (tr : List Effect) (q : String),
      q ∈ d → q ∉ ps → q ∈ (applyRemovals ps (d, tr)).1 := by
  intro ps
  induction ps with
  | nil => intro d tr q hq _; exact hq
  | cons p ps' ih =>
    intro d tr q hq hnp
    simp only [applyRemovals]
    have hne : q ≠ p := fun h => hnp (h ▸ List.mem_cons_self _ _)
    exact ih _ _ q ((List.mem_erase_of_ne hne).mpr hq) (fun h => hnp (List.mem_cons_of_mem _ h))

/-- The deletion pass preserves a duplicate-free disk. -/
theorem applyRemovals_disk_nodup :
    ∀ (ps : List String) (d : List String) (tr : List Effect),
      d.Nodup → (applyRemovals ps (d, tr)).1.Nodup := by
  intro ps
  induction ps with
  | nil => intro d tr h; exact h
  | cons p ps' ih =>
    intro d tr h
    exact ih _ _ (h.erase _)

/-! ## Cycle-level facts and the claims -/

/-- Every `remove` effect of a cycle targets a path of the previously
published inventory (shared helper for the deletion-related claims). -/
theorem syncFromS3_removals_sub (mediaDir : String) (dl : String → DlOutcome)
    (st : SyncState) (listing : Except Unit (List String)) (p : String)
    (hp : Effect.remove p ∈ (syncFromS3 mediaDir dl st listing).trace) :
    p ∈ st.mediaList.map (·.Path) := by
  cases listing with
  | error e => simp [syncFromS3] at hp
  | ok keys =>
    have htr : (syncFromS3 mediaDir dl st (Except.ok keys)).trace =
        (applyRemovals
          (processKeys mediaDir dl keys ⟨st.disk, st.mediaList.map (·.Path), 0, []⟩).toRemove
          ((processKeys mediaDir dl keys ⟨st.disk, st.mediaList.map (·.Path), 0, []⟩).disk,
           (processKeys mediaDir dl keys ⟨st.disk, st.mediaList.map (·.Path), 0, []⟩).trace)).2 :=
      rfl
    rw [htr, applyRemovals_trace] at hp
    rcases List.mem_append.mp hp with hp1 | hp2
    · rcases processKeys_trace mediaDir dl keys
        ⟨st.disk, st.mediaList.map (·.Path), 0, []⟩ with ⟨ds, hds, hall⟩
      rw [hds] at hp1
      simp only [List.nil_append] at hp1
      rcases hall _ hp1 with ⟨k, _, hk⟩
      exact absurd hk (by simp)
    · rcases List.mem_map.mp hp2 with ⟨q, hq, hqe⟩
      have hq' : q = p := by
        injection hqe
      exact hq' ▸ processKeys_toRemove_sub mediaDir dl keys _ q hq

/-- C1.  If the remote listing call fails, the reconciliation cycle performs
no mutation at all: no file is downloaded, no file is removed, and the
published inventory (the snapshot readers see) after the failed cycle is
exactly what it was before the attempt. -/
theorem listing_error_no_mutation (mediaDir : String) (dl : String → DlOutcome)
    (st : SyncState) (e : Unit) :
    (syncFromS3 mediaDir dl st (Except.error e)).trace = [] ∧
    (syncFromS3 mediaDir dl st (Except.error e)).state.disk = st.disk ∧
    (syncFromS3 mediaDir dl st (Except.error e)).state.mediaList = st.mediaList :=
  ⟨rfl, rfl, rfl⟩

/-- C3.  Every deletion a cycle performs targets a path that appeared in the
previously published inventory; a local file never present in the published
inventory (e.g. added locally between cycles, or of an unrecognized
extension, hence never scanned into it) is never removed, even when absent
from the remote listing. -/
theorem deletions_subset_published (mediaDir : String) (dl : String → DlOutcome)
    (st : SyncState) (listing : Except Unit (List String)) (p : String)
    (hp : Effect.remove p ∈ (syncFromS3 mediaDir dl st listing).trace) :
    p ∈ st.mediaList.map (·.Path) :=
  syncFromS3_removals_sub mediaDir dl st listing p hp

/-- C3 witness: a cycle with an empty listing removes `media/a.mp4`, which
indeed was listed in the published inventory. -/
theorem deletions_subset_published_witness :
    Effect.remove "media/a.mp4" ∈
      (syncFromS3 "media" exDlOk ⟨["media/a.mp4"], [exA]⟩ (Except.ok [])).trace ∧
    "media/a.mp4" ∈ ([exA] : List MediaFile).map (·.Path) :=
  ⟨by decide,
   deletions_subset_published "media" exDlOk ⟨["media/a.mp4"], [exA]⟩ (Except.ok [])
     "media/a.mp4" (by decide)⟩

/-- C6.  Within a single cycle the effect trace splits into all download
attempts followed by all removals: no local file removal happens until every
key in the download set has been processed. -/
theorem downloads_before_deletions (mediaDir : String) (dl : String → DlOutcome)
    (st : SyncState) (listing : Except Unit (List String)) :
    ∃ t₁ t₂, (syncFromS3 mediaDir dl st listing).trace = t₁ ++ t₂ ∧
      (∀ e ∈ t₁, ∃ k, e = Effect.download k) ∧
      (∀ e ∈ t₂, ∃ q, e = Effect.remove q) := by
  cases listing with
  | error e => exact ⟨[], [], rfl, by simp, by simp⟩
  | ok keys =>
    have htr : (syncFromS3 mediaDir dl st (Except.ok keys)).trace =
        (applyRemovals
          (processKeys mediaDir dl keys ⟨st.disk, st.mediaList.map (·.Path), 0, []⟩).toRemove
          ((processKeys mediaDir dl keys ⟨st.disk, st.mediaList.map (·.Path), 0, []⟩).disk,
           (processKeys mediaDir dl keys ⟨st.disk, st.mediaList.map (·.Path), 0, []⟩).trace)).2 :=
      rfl
    rcases processKeys_trace mediaDir dl keys
      ⟨st.disk, st.mediaList.map (·.Path), 0, []⟩ with ⟨ds, hds, hall⟩
    refine ⟨ds,
      (processKeys mediaDir dl keys ⟨st.disk, st.mediaList.map (·.Path), 0, []⟩).toRemove.map
        Effect.remove, ?_, ?_, ?_⟩
    · rw [htr, applyRemovals_trace, hds]
      simp
    · intro e he
      rcases hall e he with ⟨k, _, hk⟩
      exact ⟨k, hk⟩
    · intro e he
      rcases List.mem_map.mp he with ⟨q, _, hqe⟩
      exact ⟨q, hqe.symm⟩

/-- C6 witness: the trace of a concrete cycle that both downloads and
removes splits as downloads-then-removals. -/
theorem downloads_before_deletions_witness :
    ∃ t₁ t₂,
      (syncFromS3 "media" exDlOk ⟨["media/b.mp4"], [exB]⟩ (Except.ok ["a.mp4"])).trace =
        t₁ ++ t₂ ∧
      (∀ e ∈ t₁, ∃ k, e = Effect.download k) ∧
      (∀ e ∈ t₂, ∃ q, e = Effect.remove q) :=
  downloads_before_deletions "media" exDlOk ⟨["media/b.mp4"], [exB]⟩ (Except.ok ["a.mp4"])

/-- C10.  A cycle republishes the inventory only when at least one download
succeeded: when `syncCount = 0`, the published inventory is left exactly as
it was — even if the cycle deleted local files, which therefore remain
listed until some later scan. -/
theorem republish_only_after_download (mediaDir : String) (dl : String → DlOutcome)
    (st : SyncState) (listing : Except Unit (List String))
    (h : (syncFromS3 mediaDir dl st listing).syncCount = 0) :
    (syncFromS3 mediaDir dl st listing).state.mediaList = st.mediaList ∧
    (∀ p, Effect.remove p ∈ (syncFromS3 mediaDir dl st listing).trace →
      p ∈ (syncFromS3 mediaDir dl st listing).state.mediaList.map (·.Path)) := by
  have hml : (syncFromS3 mediaDir dl st listing).state.mediaList = st.mediaList := by
    cases listing with
    | error e => rfl
    | ok keys =>
      have hcnt : (syncFromS3 mediaDir dl st (Except.ok keys)).syncCount =
          (processKeys mediaDir dl keys ⟨st.disk, st.mediaList.map (·.Path), 0, []⟩).syncCount :=
        rfl
      have hml' : (syncFromS3 mediaDir dl st (Except.ok keys)).state.mediaList =
          if (processKeys mediaDir dl keys
              ⟨st.disk, st.mediaList.map (·.Path), 0, []⟩).syncCount > 0 then
            scanDisk mediaDir (syncFromS3 mediaDir dl st (Except.ok keys)).state.disk
          else st.mediaList := rfl
      rw [hml']
      rw [if_neg]
      rw [hcnt] at h
      omega
  refine ⟨hml, ?_⟩
  intro p hp
  rw [hml]
  exact syncFromS3_removals_sub mediaDir dl st listing p hp

/-- C10 witness: a cycle against an empty listing deletes `media/a.mp4`,
downloads nothing, and leaves the published inventory unchanged, still
listing the deleted file. -/
theorem republish_only_after_download_witness :
    (syncFromS3 "media" exDlOk ⟨["media/a.mp4"], [exA]⟩ (Except.ok [])).syncCount = 0 ∧
    (syncFromS3 "media" exDlOk ⟨["media/a.mp4"], [exA]⟩
        (Except.ok [])).state.mediaList = [exA] ∧
    (∀ p, Effect.remove p ∈
        (syncFromS3 "media" exDlOk ⟨["media/a.mp4"], [exA]⟩ (Except.ok [])).trace →
      p ∈ (syncFromS3 "media" exDlOk ⟨["media/a.mp4"], [exA]⟩
        (Except.ok [])).state.mediaList.map (·.Path)) :=
  ⟨by decide,
   (republish_only_after_download "media" exDlOk ⟨["media/a.mp4"], [exA]⟩
     (Except.ok []) (by decide)).1,
   (republish_only_after_download "media" exDlOk ⟨["media/a.mp4"], [exA]⟩
     (Except.ok []) (by decide)).2⟩

/-- C2 counterexample.  Reconciling twice with an unchanged remote listing
is not free of effects on the second call: starting from a consistent state
(`media/c.mov` on disk, empty published inventory) with remote `[a.mp4]`,
the first cycle downloads `a.mp4` and republishes (picking up the
locally-added `c.mov`); the second cycle then deletes `media/c.mov` — one
deletion, not zero. -/
theorem reconcile_twice_counterexample :
    (syncFromS3 "media" exDlOk
        (syncFromS3 "media" exDlOk ⟨["media/c.mov"], []⟩ (Except.ok ["a.mp4"])).state
        (Except.ok ["a.mp4"])).trace = [Effect.remove "media/c.mov"] ∧
    ([Effect.remove "media/c.mov"] : List Effect) ≠ [] := by
  constructor
  · decide
  · decide

/-- C2 as amended.  For a local state whose published inventory has
duplicate-free paths all present on disk, a duplicate-free disk, and all
downloads succeeding, the second of two cycles against the same listing
performs zero downloads; its deletions (which may be nonzero — see the
counterexample) are confined to paths that no remote key maps to, i.e. to
locally-added media files. -/
theorem second_cycle_downloads_free (mediaDir : String) (dl : String → DlOutcome)
    (st : SyncState) (keys : List String)
    (hml : (st.mediaList.map (·.Path)).Nodup)
    (hsub : ∀ f ∈ st.mediaList, f.Path ∈ st.disk)
    (hdisk : st.disk.Nodup)
    (hdl : ∀ k, dl k = DlOutcome.ok) :
    (∀ k, Effect.download k ∉
      (syncFromS3 mediaDir dl (syncFromS3 mediaDir dl st (Except.ok keys)).state
        (Except.ok keys)).trace) ∧
    (syncFromS3 mediaDir dl (syncFromS3 mediaDir dl st (Except.ok keys)).state
      (Except.ok keys)).syncCount = 0 ∧
    (∀ p, Effect.remove p ∈
        (syncFromS3 mediaDir dl (syncFromS3 mediaDir dl st (Except.ok keys)).state
          (Except.ok keys)).trace →
      p ∉ keys.map (joinPath mediaDir)) := by
  have hcover1 : ∀ k ∈ keys, joinPath mediaDir k ∈
      (processKeys mediaDir dl keys ⟨st.disk, st.mediaList.map (·.Path), 0, []⟩).disk :=
    fun k hk => processKeys_cover mediaDir dl hdl keys _ k hk
  have hprune1 : ∀ k ∈ keys, joinPath mediaDir k ∉
      (processKeys mediaDir dl keys ⟨st.disk, st.mediaList.map (·.Path), 0, []⟩).toRemove := by
    intro k hk
    by_cases hin : joinPath mediaDir k ∈ st.disk
    · exact processKeys_prune mediaDir dl keys _ hml k hk hin
    · intro hmem
      have h1 := processKeys_toRemove_sub mediaDir dl keys _ _ hmem
      rcases List.mem_map.mp h1 with ⟨f, hf, hfe⟩
      exact hin (hfe ▸ hsub f hf)
  have hdisk1mem : ∀ k ∈ keys, joinPath mediaDir k ∈
      (syncFromS3 mediaDir dl st (Except.ok keys)).state.disk := by
    intro k hk
    exact applyRemovals_disk_keep _ _ _ _ (hcover1 k hk) (hprune1 k hk)
  have hdisk1nodup : (syncFromS3 mediaDir dl st (Except.ok keys)).state.disk.Nodup :=
    applyRemovals_disk_nodup _ _ _ (processKeys_disk_nodup mediaDir dl keys _ hdisk)
  have hml1 : ((syncFromS3 mediaDir dl st
      (Except.ok keys)).state.mediaList.map (·.Path)).Nodup := by
    have hif : (syncFromS3 mediaDir dl st (Except.ok keys)).state.mediaList =
        if (processKeys mediaDir dl keys
            ⟨st.disk, st.mediaList.map (·.Path), 0, []⟩).syncCount > 0 then
          scanDisk mediaDir (syncFromS3 mediaDir dl st (Except.ok keys)).state.disk
        else st.mediaList := rfl
    rw [hif]
    split
    · exact scanDisk_paths_nodup mediaDir _ hdisk1nodup
    · exact hml
  have hall2 := processKeys_all_present mediaDir dl keys
    ⟨(syncFromS3 mediaDir dl st (Except.ok keys)).state.disk,
     (syncFromS3 mediaDir dl st (Except.ok keys)).state.mediaList.map (·.Path), 0, []⟩
    (fun k hk => hdisk1mem k hk)
  have htrace2 : (syncFromS3 mediaDir dl (syncFromS3 mediaDir dl st (Except.ok keys)).state
      (Except.ok keys)).trace =
      (processKeys mediaDir dl keys
        ⟨(syncFromS3 mediaDir dl st (Except.ok keys)).state.disk,
         (syncFromS3 mediaDir dl st (Except.ok keys)).state.mediaList.map (·.Path),
         0, []⟩).toRemove.map Effect.remove := by
    have h0 : (syncFromS3 mediaDir dl (syncFromS3 mediaDir dl st (Except.ok keys)).state
        (Except.ok keys)).trace =
        (applyRemovals
          (processKeys mediaDir dl keys
            ⟨(syncFromS3 mediaDir dl st (Except.ok keys)).state.disk,
             (syncFromS3 mediaDir dl st (Except.ok keys)).state.mediaList.map (·.Path),
             0, []⟩).toRemove
          ((processKeys mediaDir dl keys
            ⟨(syncFromS3 mediaDir dl st (Except.ok keys)).state.disk,
             (syncFromS3 mediaDir dl st (Except.ok keys)).state.mediaList.map (·.Path),
             0, []⟩).disk,
           (processKeys mediaDir dl keys
            ⟨(syncFromS3 mediaDir dl st (Except.ok keys)).state.disk,
             (syncFromS3 mediaDir dl st (Except.ok keys)).state.mediaList.map (·.Path),
             0, []⟩).trace)).2 := rfl
    rw [h0, applyRemovals_trace, hall2.2.1]
    simp
  refine ⟨?_, ?_, ?_⟩
  · intro k hk
    rw [htrace2] at hk
    rcases List.mem_map.mp hk with ⟨q, _, hqe⟩
    exact absurd hqe (by simp)
  · exact hall2.2.2
  · intro p hp hmap
    rw [htrace2] at hp
    rcases List.mem_map.mp hp with ⟨q, hq, hqe⟩
    have hqp : q = p := by injection hqe
    rcases List.mem_map.mp hmap with ⟨k, hk, hkp⟩
    have hprune2 := processKeys_prune mediaDir dl keys
      ⟨(syncFromS3 mediaDir dl st (Except.ok keys)).state.disk,
       (syncFromS3 mediaDir dl st (Except.ok keys)).state.mediaList.map (·.Path),
       0, []⟩ hml1 k hk (hdisk1mem k hk)
    rw [hkp, ← hqp] at hprune2
    exact hprune2 hq

/-- C2 witness: an already-synchronized state (`media/a.mp4` both on disk,
published, and listed remotely) reconciled twice: the second cycle performs
zero downloads and its deletions avoid every remote-mapped path. -/
theorem second_cycle_downloads_free_witness :
    ((([exA] : List MediaFile).map (·.Path)).Nodup ∧
      (∀ f ∈ ([exA] : List MediaFile), f.Path ∈ ["media/a.mp4"]) ∧
      (["media/a.mp4"] : List String).Nodup ∧ (∀ k, exDlOk k = DlOutcome.ok)) ∧
    ((∀ k, Effect.download k ∉
      (syncFromS3 "media" exDlOk
        (syncFromS3 "media" exDlOk ⟨["media/a.mp4"], [exA]⟩ (Except.ok ["a.mp4"])).state
        (Except.ok ["a.mp4"])).trace) ∧
    (syncFromS3 "media" exDlOk
        (syncFromS3 "media" exDlOk ⟨["media/a.mp4"], [exA]⟩ (Except.ok ["a.mp4"])).state
        (Except.ok ["a.mp4"])).syncCount = 0 ∧
    (∀ p, Effect.remove p ∈
        (syncFromS3 "media" exDlOk
          (syncFromS3 "media" exDlOk ⟨["media/a.mp4"], [exA]⟩ (Except.ok ["a.mp4"])).state
          (Except.ok ["a.mp4"])).trace →
      p ∉ (["a.mp4"] : List String).map (joinPath "media"))) :=
  ⟨⟨by decide, by decide, by decide, fun _ => rfl⟩,
   second_cycle_downloads_free "media" exDlOk ⟨["media/a.mp4"], [exA]⟩ ["a.mp4"]
     (by decide) (by decide) (by decide) (fun _ => rfl)⟩

/-- C4 counterexample.  On a 13-file scan (above `sort.Slice`'s
insertion-sort cutoff of 12) the two identically-named `dup.mp4` entries
come out in the opposite of traversal order: `sort.Slice`'s partitioning is
not stable, so tie order is not traversal-order-stable. -/
theorem inventory_tie_order_counterexample :
    withName "dup.mp4" (scanMediaGo "media" evsTie) =
      [⟨"dup.mp4", "media/d06/dup.mp4", "/media/d06/dup.mp4"⟩,
       ⟨"dup.mp4", "media/d00/dup.mp4", "/media/d00/dup.mp4"⟩] ∧
    withName "dup.mp4" (walkCollect "media" evsTie) =
      [⟨"dup.mp4", "media/d00/dup.mp4", "/media/d00/dup.mp4"⟩,
       ⟨"dup.mp4", "media/d06/dup.mp4", "/media/d06/dup.mp4"⟩] ∧
    withName "dup.mp4" (scanMediaGo "media" evsTie) ≠
      withName "dup.mp4" (walkCollect "media" evsTie) := by
  have h1 : withName "dup.mp4" (scanMediaGo "media" evsTie) =
      [⟨"dup.mp4", "media/d06/dup.mp4", "/media/d06/dup.mp4"⟩,
       ⟨"dup.mp4", "media/d00/dup.mp4", "/media/d00/dup.mp4"⟩] := by decide
  have h2 : withName "dup.mp4" (walkCollect "media" evsTie) =
      [⟨"dup.mp4", "media/d00/dup.mp4", "/media/d00/dup.mp4"⟩,
       ⟨"dup.mp4", "media/d06/dup.mp4", "/media/d06/dup.mp4"⟩] := by decide
  refine ⟨h1, h2, ?_⟩
  rw [h1, h2]
  decide

/-- C4 as amended.  For every scan collecting at most 12 entries — where
`sort.Slice` runs its (stable) insertion sort — the published inventory is
sorted ascending by name, identically-named entries in different
subdirectories are both retained (the output is a permutation of the
collected entries), and tie order is traversal-order-stable; beyond 12
entries stability is not guaranteed (see the counterexample). -/
theorem inventory_sorted_by_name (mediaDir : String) (evs : List WalkEntry)
    (h : (walkCollect mediaDir evs).length ≤ 12) :
    List.Pairwise nameLe (scanMediaGo mediaDir evs) ∧
    List.Perm (scanMediaGo mediaDir evs) (walkCollect mediaDir evs) ∧
    ∀ n, withName n (scanMediaGo mediaDir evs) = withName n (walkCollect mediaDir evs) := by
  unfold scanMediaGo
  rw [sortSlice_of_length_le _ h]
  exact ⟨goldSort_sorted _, goldSort_perm _, fun n => goldSort_withName n _⟩

/-- C4 witness: a 3-entry scan with a duplicated name: sorted by name, both
duplicates retained, ties in traversal order. -/
theorem inventory_sorted_by_name_witness :
    (walkCollect "media" evsSmall).length ≤ 12 ∧
    (List.Pairwise nameLe (scanMediaGo "media" evsSmall) ∧
      List.Perm (scanMediaGo "media" evsSmall) (walkCollect "media" evsSmall) ∧
      ∀ n, withName n (scanMediaGo "media" evsSmall) = withName n (walkCollect "media" evsSmall)) :=
  ⟨by decide, inventory_sorted_by_name "media" evsSmall (by decide)⟩

/-- C5 counterexample.  In `evsErr` the erroring entry is followed by a
valid, error-free media file `media/b.mp4`; the claim predicts it is
collected (only the failing entry skipped), but the walk callback returns
the error, `filepath.Walk` stops, and the published list contains only what
was collected before the error. -/
theorem scan_error_skip_counterexample :
    scanMediaGo "media" evsErr = [⟨"a.mp4", "media/a.mp4", "/media/a.mp4"⟩] ∧
    (⟨"media/b.mp4", "b.mp4", false, false⟩ : WalkEntry) ∈ evsErr ∧
    (⟨"media/b.mp4", "b.mp4", false, false⟩ : WalkEntry).err = false ∧
    isMediaEntry ⟨"media/b.mp4", "b.mp4", false, false⟩ = true ∧
    mkMediaFile "media" ⟨"media/b.mp4", "b.mp4", false, false⟩ ∉ scanMediaGo "media" evsErr := by
  refine ⟨by decide, by decide, rfl, by decide, by decide⟩

/-- C5 as amended.  Any per-entry error terminates the walk at that point —
errors are not skipped — and the list published is whatever was collected
before the first error, sorted; on an error-free walk every accepted entry
is collected. -/
theorem scan_stops_at_first_error (mediaDir : String) (evs : List WalkEntry) :
    scanMediaGo mediaDir evs = scanMediaGo mediaDir (evs.takeWhile (fun e => !e.err)) ∧
    ((∀ e ∈ evs, e.err = false) →
      walkCollect mediaDir evs =
        evs.filterMap (fun e => if isMediaEntry e then some (mkMediaFile mediaDir e) else none)) := by
  constructor
  · unfold scanMediaGo
    rw [walkCollect_stops]
  · exact walkCollect_of_no_err mediaDir evs

/-- C5 witness: on the error-free walk `evsOk2` the collection is exactly
the accepted entries. -/
theorem scan_stops_at_first_error_witness :
    (∀ e ∈ evsOk2, e.err = false) ∧
    walkCollect "media" evsOk2 =
      evsOk2.filterMap (fun e => if isMediaEntry e then some (mkMediaFile "media" e) else none) :=
  ⟨by decide, (scan_stops_at_first_error "media" evsOk2).2 (by decide)⟩

/-- C7 (the code against the claim).  `downloadFromS3` creates the final
path directly (`os.Create(localPath)`) and streams into it, so a transfer
that fails after delivering one byte leaves that truncated byte at the final
path — where the claim's temporary-path-plus-rename design would have left
the destination untouched. -/
theorem download_failure_truncates_final_path :
    (downloadFromS3Go (fun _ => none) "media/a.mp4" (GetObjectResult.body [7] true)).2 = false ∧
    (downloadFromS3Go (fun _ => none) "media/a.mp4"
      (GetObjectResult.body [7] true)).1 "media/a.mp4" = some [7] ∧
    ((fun _ => none : String → Option (List Nat)) "media/a.mp4" = none) := by
  refine ⟨rfl, ?_, rfl⟩
  simp [downloadFromS3Go, writeFile]

/-- C8 (the code against the claim).  The remote listing is one
`ListObjectsV2` call with no continuation loop: with a bucket of two keys
and page size one, the key set the reconciler uses is just the first page
even though the response is marked truncated — and the missing key's local
file is then wrongly deleted as "removed remotely". -/
theorem listing_ignores_pagination :
    listRemoteKeysGo ["a.mp4", "b.mp4"] 1 = ["a.mp4"] ∧
    (listObjectsV2 ["a.mp4", "b.mp4"] 1).2 = true ∧
    "b.mp4" ∉ listRemoteKeysGo ["a.mp4", "b.mp4"] 1 ∧
    Effect.remove "media/b.mp4" ∈
      (syncFromS3 "media" exDlOk ⟨["media/b.mp4"], [exB]⟩
        (Except.ok (listRemoteKeysGo ["a.mp4", "b.mp4"] 1))).trace := by
  refine ⟨rfl, rfl, by decide, by decide⟩
